import Mathlib

/-!
# azure-purge: purge decision logic

A shallow embedding of the filtering rules of `src/go/azure-purge/main.go`
(`purgeInvalidImages`, `purgeOldImages`, `purgeBlobs`, `purgeGroups`) together
with the parts of the Go standard library they call (`regexp`, `time`,
`strconv`, `sort`), and of the routines themselves (`deleteImages`,
`deleteGroups`, `run`) as functions on an explicit provider state, followed by
theorems about the delete-sets they compute, about dry-run and about errors.

Go strings are modelled by Lean strings, read as lists of characters; Go's
byte-wise `<` on strings agrees with the code-point order on valid UTF-8.
A `*string` that the code dereferences without a nil check (`*image.Name`,
`*group.Name`) is modelled by a plain string.
-/

namespace AzurePurge

/-! ## Constants (main.go, lines 20-27) -/

/-- Go `time.Second`, in nanoseconds (a `time.Duration` counts nanoseconds). -/
def Second : Int := 1000000000

/-- Go `time.Hour`, in nanoseconds. -/
def Hour : Int := 3600 * Second

/-- The constant `keepImages = 5`. -/
def keepImages : Nat := 5

/-- The constant `buildTimeout = 6 * time.Hour`. -/
def buildTimeout : Int := 6 * Hour

/-- The constant `groupTimeout = 3 * 24 * time.Hour`. -/
def groupTimeout : Int := 3 * 24 * Hour

/-! ## Resources -/

/-- A tag set `map[string]*string`, as an association list; a `none` value is a
nil pointer stored under the key. -/
abbrev Tags := List (String × Option String)

/-- The value of `tags[key]`: `none` when the key is absent or holds nil. -/
def tagLookup : Tags → String → Option String
  | [], _ => none
  | (k, v) :: rest, key => if k = key then v else tagLookup rest key

/-- The fields of `compute.Image` that the purge routines read. -/
structure Image where
  Name : String
  Tags : Tags
deriving DecidableEq

/-- The fields of `resources.Group` that the purge routines read. -/
structure Group where
  Name : String
  Tags : Tags
deriving DecidableEq

/-- The field of a storage blob that `purgeBlobs` reads. -/
structure Blob where
  Name : String
deriving DecidableEq

/-! ## Regular expressions (Go `regexp`, RE2 syntax, no flags)

Without flags `.` matches any character except line feed, `$` matches only at
the end of the text and `[0-9]` matches the ten ASCII digits. -/

/-- The character class `[0-9]`. -/
def isDigit (c : Char) : Bool := decide (48 ≤ c.toNat) && decide (c.toNat ≤ 57)

/-- The character class of `.`: everything but line feed. -/
def isDot (c : Char) : Bool := decide (c.toNat ≠ 10)

/-- The common shape of `^.*-([0-9]{12})$` and `^(.*)-[0-9]{12}$`: the last
twelve characters are digits, the character before them is `-` (a digit is not
`-`, so the position of that `-` is forced), and what precedes is matched by
`.*`, so holds no line feed. Returns the part matched by `.*` and the digits. -/
def matchStamp (s : List Char) : Option (List Char × List Char) :=
  if 13 ≤ s.length then
    match s.drop (s.length - 13) with
    | c :: d =>
      if c = '-' ∧ d.all isDigit = true ∧ (s.take (s.length - 13)).all isDot = true then
        some (s.take (s.length - 13), d)
      else none
    | [] => none
  else none

/-- The result `m` of `imageRx.FindStringSubmatch(name)` in `purgeInvalidImages`,
where `imageRx` is `^.*-([0-9]{12})$`: `none` for `m == nil`, else `m[1]`. -/
def imageRxStamp (name : String) : Option (List Char) :=
  (matchStamp name.data).map Prod.snd

/-- The result `m` of `imageRx.FindStringSubmatch(name)` in `purgeOldImages`,
where `imageRx` is `^(.*)-[0-9]{12}$`: `none` for `m == nil`, else `m[1]`. -/
def imageRxPrefix (name : String) : Option (List Char) :=
  (matchStamp name.data).map Prod.fst

/-- The result `m` of `blobRx.FindStringSubmatch(name)` in `purgeBlobs`, where
`blobRx` is `-([0-9]{12})\.vhd$` (not anchored at the start, and without `.`):
the name ends in `-`, twelve digits and `.vhd`. -/
def blobRxStamp (name : String) : Option (List Char) :=
  let s := name.data
  if 17 ≤ s.length then
    match s.drop (s.length - 17) with
    | c :: r =>
      if c = '-' ∧ (r.take 12).all isDigit = true ∧ r.drop 12 = ['.', 'v', 'h', 'd'] then
        some (r.take 12)
      else none
    | [] => none
  else none

/-! ## Time (Go `time`) -/

/-- A Go `time.Time` read as a wall-clock instant: `sec` is the count of
seconds since January 1, year 1 00:00:00 UTC (the `int64` that Go's `Time.sec()`
returns) and `nsec` the nanoseconds within that second. -/
structure Time where
  sec : Int
  nsec : Int
deriving DecidableEq

/-- Two's-complement wrap-around of `int64` arithmetic. -/
def wrapInt64 (x : Int) : Int := (x + 2 ^ 63) % 2 ^ 64 - 2 ^ 63

/-- Go `unixToInternal`: the seconds from January 1, year 1 to January 1, 1970. -/
def unixToInternal : Int := 62135596800

/-- Go `maxDuration`, the largest `time.Duration`. -/
def maxDuration : Int := 2 ^ 63 - 1

/-- Go `minDuration`, the smallest `time.Duration`. -/
def minDuration : Int := -(2 ^ 63)

/-- Go `time.Unix(sec, 0)`, which is `Time{0, sec + unixToInternal, Local}`: the
addition is an `int64` addition and wraps for `sec > 2^63 - 1 - unixToInternal`
(the documentation of `time.Unix` says that not all `sec` values have a
corresponding time value, one such value being `1<<63-1`). -/
def Unix (sec : Int) : Time := ⟨wrapInt64 (sec + unixToInternal), 0⟩

/-- Go `t.Sub(u)`, as documented: the duration `t - u` in nanoseconds; when that
exceeds the largest (or smallest) `Duration`, the largest (or smallest) is
returned. The difference is taken between the seconds counts the two values
hold, so a count that `Unix` has wrapped is read as wrapped (Go's `Sub` and
`Before` read `Time.sec()` in the same way). -/
def Time.Sub (t u : Time) : Int :=
  let d := (t.sec - u.sec) * Second + (t.nsec - u.nsec)
  if d < minDuration then minDuration
  else if maxDuration < d then maxDuration
  else d

/-- The instant of a `Time` as nanoseconds since the Unix epoch (Go `UnixNano`
without its overflow): used to state ages, not by the code. -/
def Time.unixNano (t : Time) : Int := (t.sec - unixToInternal) * Second + t.nsec

/-- Go `atoi` on a string of digits. -/
def atoi (cs : List Char) : Nat := cs.foldl (fun n c => 10 * n + (c.toNat - 48)) 0

/-- Go `isLeap`. -/
def isLeap (year : Int) : Bool :=
  decide (year % 4 = 0) && (decide (year % 100 ≠ 0) || decide (year % 400 = 0))

/-- Go `daysIn(month, year)`. -/
def daysIn (month : Nat) (year : Int) : Nat :=
  if month = 2 then (if isLeap year then 29 else 28)
  else if month = 4 ∨ month = 6 ∨ month = 9 ∨ month = 11 then 30
  else 31

/-- Go `daysBefore[month-1]`: the days of a non-leap year before the month. -/
def daysBefore (month : Nat) : Nat :=
  [0, 31, 59, 90, 120, 151, 181, 212, 243, 273, 304, 334].getD (month - 1) 0

/-- Go `time.Date(year, month, day, hour, min, 0, 0, time.UTC)` for fields that
are in range (as `time.Parse` has checked), in the proleptic Gregorian
calendar. -/
def Date (year : Int) (month day hour min : Nat) : Time :=
  let y := year - 1
  let days : Int := 365 * y + y / 4 - y / 100 + y / 400 + daysBefore month
    + (if isLeap year = true ∧ 3 ≤ month then 1 else 0) + ((day : Int) - 1)
  ⟨days * 86400 + hour * 3600 + min * 60, 0⟩

/-- Go `time.Parse("200601021504", value)` for a `value` of twelve digits, as
both regular expressions guarantee: year `2006`, month `01`, day `02`, hour
`15`, minute `04`, in UTC. `none` is a non-nil `err`: the month is not in
1..12, the hour not below 24, the minute not below 60, or the day not in
1..`daysIn`. -/
def timeParse (value : List Char) : Option Time :=
  let year := atoi (value.take 4)
  let month := atoi ((value.drop 4).take 2)
  let day := atoi ((value.drop 6).take 2)
  let hour := atoi ((value.drop 8).take 2)
  let min := atoi ((value.drop 10).take 2)
  if month = 0 ∨ 12 < month then none
  else if 24 ≤ hour then none
  else if 60 ≤ min then none
  else if day < 1 ∨ daysIn month year < day then none
  else some (Date year month day hour min)

/-! ## Integers (Go `strconv`) -/

/-- Go `strconv.ParseUint(s, 10, 64)` as far as `ParseInt` uses it: the value of
a non-empty string of digits, `none` for a syntax error. A value that does not
fit 64 bits is left to the range check of `ParseInt`. -/
def parseDigits (s : List Char) : Option Nat :=
  if s ≠ [] ∧ s.all isDigit = true then some (atoi s) else none

/-- Go `strconv.ParseInt(s, 10, 64)`: an optional sign, then digits; `none` is a
non-nil `err` (syntax error, or value out of the `int64` range). -/
def ParseInt (s : String) : Option Int :=
  match s.data with
  | [] => none
  | c :: r =>
    if c = '+' then
      (parseDigits r).bind fun un => if un < 2 ^ 63 then some (un : Int) else none
    else if c = '-' then
      (parseDigits r).bind fun un => if un ≤ 2 ^ 63 then some (-(un : Int)) else none
    else
      (parseDigits (c :: r)).bind fun un => if un < 2 ^ 63 then some (un : Int) else none

/-! ## Sorting (Go `sort`) -/

/-- Go's `<` on strings: lexicographic order, a proper prefix coming first. -/
def strLess : List Char → List Char → Bool
  | [], [] => false
  | [], _ :: _ => true
  | _ :: _, [] => false
  | a :: as, b :: bs =>
    if a.toNat < b.toNat then true
    else if b.toNat < a.toNat then false
    else strLess as bs

/-- The method `byName.Less`: `*b[i].Name < *b[j].Name`. -/
def byNameLess (a b : Image) : Bool := strLess a.Name.data b.Name.data

/-- The order of `sort.Reverse(byName(images))`: `a` may stand before `b` when
`b` is not after `a` by name, that is when `b.Name <= a.Name`. -/
def reverseByNameLe (a b : Image) : Prop := byNameLess a b = false

instance : DecidableRel reverseByNameLe := fun a b =>
  inferInstanceAs (Decidable (byNameLess a b = false))

/-- The call `sort.Sort(sort.Reverse(byName(images)))`: the images in descending
order of name. Go's sort is not stable, so the relative order it gives to
images of equal name is not specified; the insertion sort here keeps them in
listing order. -/
def sortReverseByName (images : List Image) : List Image :=
  images.insertionSort reverseByNameLe

/-! ## The four filters -/

/-- The test `err == nil && now.Sub(t) < buildTimeout` that follows
`t, err := time.Parse("200601021504", m[1])` in `purgeInvalidImages` and
`purgeBlobs`. -/
def parsedWithinBuildTimeout (now : Time) (stamp : List Char) : Bool :=
  match timeParse stamp with
  | some t => decide (now.Sub t < buildTimeout)
  | none => false

/-- The loop body of `purgeInvalidImages` (lines 163-179) as a decision: is the
image appended to `toDelete`? -/
def invalidImageSelected (now : Time) (image : Image) : Bool :=
  match imageRxStamp image.Name with
  | none => true
  | some stamp =>
    if parsedWithinBuildTimeout now stamp then false
    else
      match tagLookup image.Tags "valid" with
      | none => true
      | some v => decide (v ≠ "true")

/-- The delete-set of `purgeInvalidImages`: the list `toDelete` that the loop
over the listed images builds by appending. -/
def purgeInvalidImagesFilter (now : Time) (images : List Image) : List Image :=
  images.foldl (fun toDelete image =>
    if invalidImageSelected now image then toDelete ++ [image] else toDelete) []

/-- The loop variables of `purgeOldImages`: `toDelete`, `lastPrefix` (nil at
first) and the counter `i`. -/
structure WalkState where
  toDelete : List Image
  lastPrefix : Option (List Char)
  i : Nat
deriving DecidableEq

/-- One iteration of the loop of `purgeOldImages` (lines 199-213). -/
def walkStep (st : WalkState) (image : Image) : WalkState :=
  match imageRxPrefix image.Name with
  | none => { st with toDelete := st.toDelete ++ [image] }
  | some p =>
    if st.lastPrefix = none ∨ some p ≠ st.lastPrefix then
      { st with lastPrefix := some p, i := 1 }
    else if keepImages < st.i + 1 then
      { st with i := st.i + 1, toDelete := st.toDelete ++ [image] }
    else
      { st with i := st.i + 1 }

/-- The delete-set of `purgeOldImages`: sort descending by name, then walk. -/
def purgeOldImagesFilter (images : List Image) : List Image :=
  ((sortReverseByName images).foldl walkStep ⟨[], none, 0⟩).toDelete

/-- The set `allowedBlobs` of `purgeBlobs`: membership of a blob name. -/
def allowedBlob (images : List Image) (name : String) : Bool :=
  images.any fun image => decide (image.Name ++ ".vhd" = name)

/-- The loop body of `purgeBlobs` (lines 241-251) as a decision: does the loop
reach the line that prints `delete blob` for this blob? -/
def blobSelected (now : Time) (images : List Image) (blob : Blob) : Bool :=
  if allowedBlob images blob.Name then false
  else
    match blobRxStamp blob.Name with
    | some stamp => if parsedWithinBuildTimeout now stamp then false else true
    | none => true

/-- The delete-set of `purgeBlobs`: the blobs the loop selects, in order. -/
def purgeBlobsFilter (now : Time) (images : List Image) (blobs : List Blob) : List Blob :=
  blobs.foldl (fun toDelete blob =>
    if blobSelected now images blob then toDelete ++ [blob] else toDelete) []

/-- The loop body of `purgeGroups` (lines 273-283) as a decision: is the group
appended to `toDelete`? -/
def groupSelected (now : Time) (group : Group) : Bool :=
  match tagLookup group.Tags "now" with
  | none => false
  | some timestamp =>
    match ParseInt timestamp with
    | some t => if now.Sub (Unix t) < groupTimeout then false else true
    | none => true

/-- The delete-set of `purgeGroups`. -/
def purgeGroupsFilter (now : Time) (groups : List Group) : List Group :=
  groups.foldl (fun toDelete group =>
    if groupSelected now group then toDelete ++ [group] else toDelete) []

/-! ## The provider, the delete executor and the run -/

/-- A Go `error` that is not nil; a nil `error` is `none : Option Err`. -/
abbrev Err := String

/-- The requests of the tool that can return an error: those of `getClients`,
the listings (`listImages`, `listGroups` and `listBlobs` ask for the first
page, `nextImages` and `nextGroups` are the requests that `results.Next()`
sends for a further page), the delete submissions (`Delete`), the waits for a
pending delete (`WaitForCompletion`) and the synchronous `blob.Delete`. -/
inductive Call where
  | newAuthorizer
  | listKeys
  | newStorageClient
  | listImages
  | nextImages
  | listBlobs
  | listGroups
  | nextGroups
  | deleteImage (name : String)
  | waitImage (name : String)
  | deleteBlob (name : String)
  | deleteGroup (name : String)
  | waitGroup (name : String)
deriving DecidableEq

/-- Modelled from the spec: the cloud provider behind the vendored client
library, with the contracts `list(scope) → sequence of resource descriptors`
(paginated), `delete(name) → pending operation handle` and
`wait(handle) → success|error`. The state holds the resources that exist, the
number of resources in a page of a listing (`pageSize`, 0 for a listing that
comes in one page), the results of the requests to come (`script`: the result
of the first request, of the second, and so on, `none` for success; a request
after the end of the script succeeds), the requests sent so far with their
results, and the lines printed so far. -/
structure World where
  images : List Image
  blobs : List Blob
  groups : List Group
  pageSize : Nat
  script : List (Option Err)
  calls : List (Call × Option Err)
  out : List String

/-- The result that the script holds for the request sent after `n` others. -/
def World.faults (w : World) (n : Nat) : Option Err := w.script.getD n none

/-- Modelled from the spec: what a request that succeeds does to the resources.
A delete that has completed (a wait that returns success, or `blob.Delete`
returning nil) removes the resource of that name; everything else leaves the
resources as they are. -/
def World.complete (w : World) : Call → World
  | .waitImage name => { w with images := w.images.filter fun image => image.Name ≠ name }
  | .deleteBlob name => { w with blobs := w.blobs.filter fun blob => blob.Name ≠ name }
  | .waitGroup name => { w with groups := w.groups.filter fun group => group.Name ≠ name }
  | _ => w

/-- One request: it is recorded with its result; it returns the error that
`faults` holds for it, or succeeds and takes effect. -/
def call (c : Call) (w : World) : Option Err × World :=
  match w.faults w.calls.length with
  | some err => (some err, { w with calls := w.calls ++ [(c, some err)] })
  | none => (none, { w.complete c with calls := w.calls ++ [(c, none)] })

/-- The statement `fmt.Printf(...)`: one more line of output. -/
def printLine (line : String) (w : World) : World :=
  { w with out := w.out ++ [line] }

/-- The first loop of `deleteGroups` and `deleteImages` (lines 104-115 and
129-140), over the names of the resources: print the line, and unless
`dryRun` submit the delete, returning its error at once or collecting the
future. -/
def submitDeletes (dryRun : Bool) (line : String → String) (delete : String → Call) :
    List String → List String → World → Option Err × List String × World
  | [], futures, w => (none, futures, w)
  | name :: rest, futures, w =>
    if dryRun then submitDeletes dryRun line delete rest futures (printLine (line name) w)
    else
      match call (delete name) (printLine (line name) w) with
      | (some err, w2) => (some err, futures, w2)
      | (none, w2) => submitDeletes dryRun line delete rest (futures ++ [name]) w2

/-- The second loop of `deleteGroups` and `deleteImages` (lines 117-122 and
142-147): wait for every future, returning the first error at once. -/
def waitDeletes (wait : String → Call) : List String → World → Option Err × World
  | [], w => (none, w)
  | future :: rest, w =>
    match call (wait future) w with
    | (some err, w1) => (some err, w1)
    | (none, w1) => waitDeletes wait rest w1

/-- The line that `deleteImages` prints for an image. -/
def imageLine (name : String) : String := "delete image " ++ name ++ "\n"

/-- The line that `deleteGroups` prints for a group. -/
def groupLine (name : String) : String := "delete group " ++ name ++ "\n"

/-- The line that `purgeBlobs` prints for a blob. -/
def blobLine (name : String) : String := "delete blob " ++ name ++ "\n"

/-- The function `deleteImages` (lines 127-150). -/
def deleteImages (dryRun : Bool) (images : List Image) (w : World) : Option Err × World :=
  match submitDeletes dryRun imageLine Call.deleteImage
      (images.map fun image => image.Name) [] w with
  | (some err, _, w1) => (some err, w1)
  | (none, futures, w1) => waitDeletes Call.waitImage futures w1

/-- The function `deleteGroups` (lines 102-125). -/
def deleteGroups (dryRun : Bool) (groups : List Group) (w : World) : Option Err × World :=
  match submitDeletes dryRun groupLine Call.deleteGroup
      (groups.map fun group => group.Name) [] w with
  | (some err, _, w1) => (some err, w1)
  | (none, futures, w1) => waitDeletes Call.waitGroup futures w1

/-- Modelled from the spec: the pages of a listing, `size` resources each and
the rest in the last one (one page for all when `size` is 0); `cur` is the
page being filled. No page is empty. -/
def pagesFrom {α : Type} (size : Nat) : List α → List α → List (List α)
  | [], [] => []
  | x :: cur, [] => [x :: cur]
  | cur, x :: xs =>
    if cur.length + 1 = size then (cur ++ [x]) :: pagesFrom size [] xs
    else pagesFrom size (cur ++ [x]) xs

/-- The loop `for ; results.NotDone(); results.Next() { .. append(.., results.Values()...) }`
of `listGroups` and `listImages` (lines 81-83 and 95-97). `page` is the page
that `results` holds and `rest` the pages still to be asked for. `NotDone()`
is false on an empty page. `Next()` on the last page sends nothing and leaves
an empty page; otherwise it sends the request `next` and, on success, holds
the next page. When the request fails `Next()` returns the error and
`results` keeps the page it has; the `for` statement does not read what
`Next()` returns, so the loop goes on and appends the same page again. The
first argument bounds the number of turns (see `listImages`). -/
def pageLoop {α : Type} (next : Call) :
    Nat → List α → List (List α) → List α → World → List α × World
  | 0, _, _, acc, w => (acc, w)
  | _ + 1, [], _, acc, w => (acc, w)
  | _ + 1, x :: page, [], acc, w => (acc ++ x :: page, w)
  | fuel + 1, x :: page, nextPage :: rest, acc, w =>
    match call next w with
    | (some _, w1) => pageLoop next fuel (x :: page) (nextPage :: rest) (acc ++ x :: page) w1
    | (none, w1) => pageLoop next fuel nextPage rest (acc ++ x :: page) w1

/-- The turns that the page loop can take at most: one for each page, and one
for each request that the script can still make fail. In the code the loop
goes on for as long as the page request fails; the script is finite, so here
it ends (`pageLoop_fuel`: the bound is never reached). -/
def pageTurns {α : Type} (pages : List (List α)) (w : World) : Nat :=
  pages.length + (w.script.length - w.calls.length) + 1

/-- The function `listImages` (lines 88-100): the request for the first page,
whose error is returned, then the page loop, which returns no error. -/
def listImages (w : World) : Option Err × List Image × World :=
  match call Call.listImages w with
  | (some err, w1) => (some err, [], w1)
  | (none, w1) =>
    let pages := pagesFrom w1.pageSize [] w1.images
    let r := pageLoop Call.nextImages (pageTurns pages w1) (pages.headD []) pages.tail [] w1
    (none, r.1, r.2)

/-- The function `listGroups` (lines 74-86), of the same shape as
`listImages`. -/
def listGroups (w : World) : Option Err × List Group × World :=
  match call Call.listGroups w with
  | (some err, w1) => (some err, [], w1)
  | (none, w1) =>
    let pages := pagesFrom w1.pageSize [] w1.groups
    let r := pageLoop Call.nextGroups (pageTurns pages w1) (pages.headD []) pages.tail [] w1
    (none, r.1, r.2)

/-- The call `ctr.ListBlobs(azstorage.ListBlobsParameters{})` (line 236). -/
def listBlobs (w : World) : Option Err × List Blob × World :=
  match call Call.listBlobs w with
  | (some err, w1) => (some err, [], w1)
  | (none, w1) => (none, w1.blobs, w1)

/-- The function `purgeInvalidImages` (lines 154-182). -/
def purgeInvalidImages (dryRun : Bool) (now : Time) (w : World) : Option Err × World :=
  match listImages w with
  | (some err, _, w1) => (some err, w1)
  | (none, images, w1) => deleteImages dryRun (purgeInvalidImagesFilter now images) w1

/-- The function `purgeOldImages` (lines 186-216). -/
def purgeOldImages (dryRun : Bool) (w : World) : Option Err × World :=
  match listImages w with
  | (some err, _, w1) => (some err, w1)
  | (none, images, w1) => deleteImages dryRun (purgeOldImagesFilter images) w1

/-- The loop of `purgeBlobs` over the listed blobs (lines 241-259): a blob that
is selected is printed and, unless `dryRun`, deleted at once, an error ending
the loop. -/
def purgeBlobsLoop (dryRun : Bool) (now : Time) (images : List Image) :
    List Blob → World → Option Err × World
  | [], w => (none, w)
  | blob :: rest, w =>
    if blobSelected now images blob then
      if dryRun then
        purgeBlobsLoop dryRun now images rest (printLine (blobLine blob.Name) w)
      else
        match call (Call.deleteBlob blob.Name) (printLine (blobLine blob.Name) w) with
        | (some err, w1) => (some err, w1)
        | (none, w1) => purgeBlobsLoop dryRun now images rest w1
    else purgeBlobsLoop dryRun now images rest w

/-- The function `purgeBlobs` (lines 221-262). -/
def purgeBlobs (dryRun : Bool) (now : Time) (w : World) : Option Err × World :=
  match listImages w with
  | (some err, _, w1) => (some err, w1)
  | (none, images, w1) =>
    match listBlobs w1 with
    | (some err, _, w2) => (some err, w2)
    | (none, blobs, w2) => purgeBlobsLoop dryRun now images blobs w2

/-- The function `purgeGroups` (lines 266-286). -/
def purgeGroups (dryRun : Bool) (now : Time) (w : World) : Option Err × World :=
  match listGroups w with
  | (some err, _, w1) => (some err, w1)
  | (none, groups, w1) => deleteGroups dryRun (purgeGroupsFilter now groups) w1

/-- The function `getClients` (lines 46-72): the three steps that can fail. -/
def getClients (w : World) : Option Err × World :=
  match call Call.newAuthorizer w with
  | (some err, w1) => (some err, w1)
  | (none, w1) =>
    match call Call.listKeys w1 with
    | (some err, w2) => (some err, w2)
    | (none, w2) => call Call.newStorageClient w2

/-- The function `run` (lines 288-310); `now` is the package variable set once
at start, `dryRun` the flag `-n`. -/
def run (dryRun : Bool) (now : Time) (w : World) : Option Err × World :=
  match getClients w with
  | (some err, w1) => (some err, w1)
  | (none, w1) =>
    match purgeInvalidImages dryRun now w1 with
    | (some err, w2) => (some err, w2)
    | (none, w2) =>
      match purgeOldImages dryRun w2 with
      | (some err, w3) => (some err, w3)
      | (none, w3) =>
        match purgeBlobs dryRun now w3 with
        | (some err, w4) => (some err, w4)
        | (none, w4) => purgeGroups dryRun now w4

/-- No request fails. -/
def NoFaults (w : World) : Prop := ∀ n, w.faults n = none

/-- How an error shows in the requests sent between the state `w` and the
result `r` of a routine: when `r` holds no error, no request failed; when it
holds `err`, the last request sent is the only one that failed, and it failed
with `err`. -/
def Propagates (w : World) (r : Option Err × World) : Prop :=
  ∃ sent : List (Call × Option Err), r.2.calls = w.calls ++ sent
    ∧ match r.1 with
      | none => ∀ x ∈ sent, x.2 = none
      | some err => ∃ (before : List (Call × Option Err)) (c : Call),
          sent = before ++ [(c, some err)] ∧ ∀ x ∈ before, x.2 = none

/-- The state `w1` differs from `w` at most by the requests sent. -/
def OnlyCalls (w w1 : World) : Prop :=
  w1.images = w.images ∧ w1.blobs = w.blobs ∧ w1.groups = w.groups
    ∧ w1.pageSize = w.pageSize ∧ w1.script = w.script ∧ w1.out = w.out

/-! ## Inputs used by the closed statements below -/

/-- The instant 2018-11-04 01:00:00 UTC. -/
def nowSample : Time := ⟨63676890000, 0⟩

/-- An image without a timestamp in its name, tagged valid. -/
def imageNoStamp : Image := ⟨"scratch", [("valid", some "true")]⟩

/-- An image built one hour before `nowSample`, without tags. -/
def imageYoung : Image := ⟨"rhel7-201811040000", []⟩

/-- An image built a month before `nowSample`, tagged valid. -/
def imageOldValid : Image := ⟨"rhel7-201810040000", [("valid", some "true")]⟩

/-- An image whose name ends in a timestamp one hour before `nowSample` and
holds a line feed before it. -/
def imageLineFeed : Image := ⟨"rhel7\n-201811040000", [("valid", some "true")]⟩

/-- The six images `a-1` .. `a-6`, in descending order of name. -/
def imagesShort : List Image :=
  [⟨"a-6", []⟩, ⟨"a-5", []⟩, ⟨"a-4", []⟩, ⟨"a-3", []⟩, ⟨"a-2", []⟩, ⟨"a-1", []⟩]

/-- A listing of one image, whose prefix holds a line feed. -/
def imagesLineFeedPrefix : List Image := [⟨"rhel7\n-201811040000", []⟩]

/-- Seven images of prefix `rhel7`, listed out of order. -/
def imagesSeven : List Image :=
  [⟨"rhel7-201811030000", []⟩, ⟨"rhel7-201811070000", []⟩, ⟨"rhel7-201811010000", []⟩,
    ⟨"rhel7-201811050000", []⟩, ⟨"rhel7-201811020000", []⟩, ⟨"rhel7-201811060000", []⟩,
    ⟨"rhel7-201811040000", []⟩]

/-- The timestamp embedded in a name: the value of its last twelve characters
(used to state which images are the oldest, not by the code). -/
def embeddedStamp (name : String) : Nat := atoi (name.data.drop (name.data.length - 12))

/-- Six images of prefix `rhel7` and one of prefix `rhel7-201811010000`, whose
name sorts between the two oldest `rhel7` images. -/
def imagesInterleaved : List Image :=
  [⟨"rhel7-201811060000", []⟩, ⟨"rhel7-201811050000", []⟩, ⟨"rhel7-201811040000", []⟩,
    ⟨"rhel7-201811030000", []⟩, ⟨"rhel7-201811020000", []⟩,
    ⟨"rhel7-201811010000-201811010100", []⟩, ⟨"rhel7-201811010000", []⟩]

/-- Seven images of prefix `rhel7` and one name with thirteen digits, which does
not match and sorts between the two oldest images. -/
def imagesUnmatchedInside : List Image :=
  [⟨"rhel7-201811070000", []⟩, ⟨"rhel7-201811060000", []⟩, ⟨"rhel7-201811050000", []⟩,
    ⟨"rhel7-201811040000", []⟩, ⟨"rhel7-201811030000", []⟩, ⟨"rhel7-201811020000", []⟩,
    ⟨"rhel7-2018110100005", []⟩, ⟨"rhel7-201811010000", []⟩]

/-- The walk of the retention filter as the specification words it, over the
images in descending order of name: `last` is the prefix seen last and `n` its
counter. A name that does not match is deleted, and resets the counter to 1
when `resetOnUnmatched` is set (the specification's wording) or leaves it as it
is when not; the first occurrence of a new prefix sets the counter to 1; a
repeat increments it and is deleted beyond the `keepImages`-th occurrence. -/
def referenceWalk (resetOnUnmatched : Bool) :
    Option (List Char) → Nat → List Image → List Image
  | _, _, [] => []
  | last, n, image :: rest =>
    match imageRxPrefix image.Name with
    | none =>
      image :: referenceWalk resetOnUnmatched last (if resetOnUnmatched then 1 else n) rest
    | some p =>
      if last = some p then
        if keepImages < n + 1 then
          image :: referenceWalk resetOnUnmatched (some p) (n + 1) rest
        else referenceWalk resetOnUnmatched (some p) (n + 1) rest
      else referenceWalk resetOnUnmatched (some p) 1 rest

/-- A blob of an image that is still listed, a month old at `nowSample`. -/
def blobOfImage : Blob := ⟨"rhel7-201810040000.vhd"⟩

/-- A group without a `now` tag. -/
def groupUntagged : Group := ⟨"untracked", [("owner", some "ci")]⟩

/-- A group whose `now` tag is the largest 64-bit integer. -/
def groupFarFuture : Group := ⟨"build", [("now", some "9223372036854775807")]⟩

/-- A group created three days and one second before `nowSample`. -/
def groupExpired : Group := ⟨"build", [("now", some "1541033999")]⟩

/-- A group created one second short of three days before `nowSample`. -/
def groupNotExpired : Group := ⟨"build", [("now", some "1541034001")]⟩

/-- A group whose `now` tag is not a number. -/
def groupBadTag : Group := ⟨"build", [("now", some "abc")]⟩

/-- An image with month 13 in its name, tagged valid. -/
def imageMonth13 : Image := ⟨"rhel7-201813040000", [("valid", some "true")]⟩

/-- An image with month 13 in its name and a line feed before it, tagged
valid. -/
def imageMonth13LineFeed : Image := ⟨"rhel7\n-201813040000", [("valid", some "true")]⟩

/-- A provider with one old image without tags and the blob of that image, on
which no request fails. -/
def worldOneImage : World :=
  { images := [⟨"rhel7-201810040000", []⟩], blobs := [⟨"rhel7-201810040000.vhd"⟩],
    groups := [], pageSize := 0, script := [], calls := [], out := [] }

/-- A provider with two images without timestamp, on which the sixth request
(the submission of the second delete) fails. -/
def worldSecondDeleteFails : World :=
  { images := [⟨"scratch", []⟩, ⟨"test", []⟩], blobs := [], groups := [], pageSize := 0,
    script := [none, none, none, none, none, some "conflict"], calls := [], out := [] }

/-- A provider with two images without timestamp that lists one image to a
page, on which the second request (the one for the second page) fails. -/
def worldPageFails : World :=
  { images := [⟨"scratch", []⟩, ⟨"test", []⟩], blobs := [], groups := [], pageSize := 1,
    script := [none, some "timeout"], calls := [], out := [] }

/-- The provider of `worldPageFails` for a whole run: the three requests of
`getClients` and the first listing succeed, the fifth request (the one for the
second page of images) fails. -/
def worldPageFailsInRun : World :=
  { images := [⟨"scratch", []⟩, ⟨"test", []⟩], blobs := [], groups := [], pageSize := 1,
    script := [none, none, none, none, some "timeout"], calls := [], out := [] }

/-! ## General lemmas -/

theorem foldl_append_if {α : Type} (f : α → Bool) (l init : List α) :
    l.foldl (fun acc x => if f x = true then acc ++ [x] else acc) init
      = init ++ l.filter f := by
  induction l generalizing init with
  | nil => simp
  | cons x xs ih =>
    simp only [List.foldl_cons, ih, List.filter_cons]
    split <;> simp

theorem purgeInvalidImagesFilter_eq (now : Time) (images : List Image) :
    purgeInvalidImagesFilter now images = images.filter (invalidImageSelected now) := by
  simp [purgeInvalidImagesFilter, foldl_append_if]

theorem mem_purgeInvalidImagesFilter (now : Time) (images : List Image) (image : Image) :
    image ∈ purgeInvalidImagesFilter now images
      ↔ image ∈ images ∧ invalidImageSelected now image = true := by
  simp [purgeInvalidImagesFilter_eq]

/-- Saturation of `Sub` does not change a comparison with a bound that is itself
a duration above the smallest one. -/
theorem Sub_lt_iff (t u : Time) (b : Int) (h1 : minDuration < b) (h2 : b ≤ maxDuration) :
    t.Sub u < b ↔ t.unixNano - u.unixNano < b := by
  have hd : t.unixNano - u.unixNano = (t.sec - u.sec) * Second + (t.nsec - u.nsec) := by
    simp only [Time.unixNano]; ring
  rw [hd]
  simp only [Time.Sub]
  split_ifs <;> omega

theorem buildTimeout_bounds : minDuration < buildTimeout ∧ buildTimeout ≤ maxDuration := by
  decide

theorem groupTimeout_bounds : minDuration < groupTimeout ∧ groupTimeout ≤ maxDuration := by
  decide

/-! ## The order on names and the value of digit strings -/

theorem char_eq_of_toNat_eq {a b : Char} (h : a.toNat = b.toNat) : a = b := by
  apply Char.ext
  apply UInt32.ext
  exact h

theorem strLess_irrefl (a : List Char) : strLess a a = false := by
  induction a with
  | nil => rfl
  | cons c cs ih => simp [strLess, ih]

theorem strLess_asymm : ∀ (a b : List Char), strLess a b = true → strLess b a = false
  | [], [], h => by simp [strLess] at h
  | [], _ :: _, _ => by simp [strLess]
  | _ :: _, [], h => by simp [strLess] at h
  | a :: as, b :: bs, h => by
    simp only [strLess] at h ⊢
    split_ifs at h ⊢ <;> first | rfl | omega | exact strLess_asymm as bs h

theorem strLess_connex : ∀ (a b : List Char), strLess a b = false → strLess b a = false → a = b
  | [], [], _, _ => rfl
  | [], _ :: _, h, _ => by simp [strLess] at h
  | _ :: _, [], _, h => by simp [strLess] at h
  | a :: as, b :: bs, h, h' => by
    simp only [strLess] at h h'
    split_ifs at h h'
    have hab : a = b := char_eq_of_toNat_eq (by omega)
    rw [hab, strLess_connex as bs h h']

theorem strLess_ge_trans : ∀ (a b c : List Char),
    strLess a b = false → strLess b c = false → strLess a c = false
  | [], [], _, _, h => h
  | [], _ :: _, _, h, _ => by simp [strLess] at h
  | _ :: _, [], [], _, _ => by simp [strLess]
  | _ :: _, [], _ :: _, _, h => by simp [strLess] at h
  | _ :: _, _ :: _, [], _, _ => by simp [strLess]
  | a :: as, b :: bs, c :: cs, h, h' => by
    simp only [strLess] at h h' ⊢
    split_ifs at h h' ⊢ with h1 h2 h3 h4 h5 h6 <;> first | omega | rfl | skip
    exact strLess_ge_trans as bs cs h h'

theorem strLess_append_left (p x y : List Char) : strLess (p ++ x) (p ++ y) = strLess x y := by
  induction p with
  | nil => rfl
  | cons c cs ih => simp [strLess, ih]

theorem atoi_foldl (cs : List Char) (n : Nat) :
    cs.foldl (fun n c => 10 * n + (c.toNat - 48)) n = n * 10 ^ cs.length + atoi cs := by
  induction cs generalizing n with
  | nil => simp [atoi]
  | cons c cs ih =>
    simp only [List.foldl_cons, List.length_cons, atoi]
    rw [ih, ih (10 * 0 + (c.toNat - 48))]
    ring

theorem atoi_cons (c : Char) (cs : List Char) :
    atoi (c :: cs) = (c.toNat - 48) * 10 ^ cs.length + atoi cs := by
  simp only [atoi, List.foldl_cons]
  rw [atoi_foldl]
  simp [atoi]

theorem atoi_lt_pow (cs : List Char) (h : cs.all isDigit = true) : atoi cs < 10 ^ cs.length := by
  induction cs with
  | nil => simp [atoi]
  | cons c cs ih =>
    simp only [List.all_cons, Bool.and_eq_true] at h
    have hc : c.toNat ≤ 57 := by
      have := h.1
      simp only [isDigit, Bool.and_eq_true, decide_eq_true_eq] at this
      exact this.2
    have := ih h.2
    rw [atoi_cons, List.length_cons, pow_succ]
    have h9 : (c.toNat - 48) ≤ 9 := by omega
    nlinarith

theorem atoi_lt_of_strLess : ∀ (a b : List Char), a.length = b.length →
    a.all isDigit = true → b.all isDigit = true → strLess a b = true → atoi a < atoi b
  | [], [], _, _, _, h => by simp [strLess] at h
  | [], _ :: _, hl, _, _, _ => by simp at hl
  | _ :: _, [], hl, _, _, _ => by simp at hl
  | a :: as, b :: bs, hl, ha, hb, h => by
    simp only [List.length_cons, Nat.add_right_cancel_iff] at hl
    simp only [List.all_cons, Bool.and_eq_true] at ha hb
    have ha1 := ha.1
    have hb1 := hb.1
    simp only [isDigit, Bool.and_eq_true, decide_eq_true_eq] at ha1 hb1
    rw [atoi_cons, atoi_cons]
    simp only [strLess] at h
    split_ifs at h with h1 h2
    · have hlt := atoi_lt_pow as ha.2
      rw [hl] at hlt ⊢
      have : (a.toNat - 48) + 1 ≤ b.toNat - 48 := by omega
      nlinarith
    · have hab : a.toNat = b.toNat := by omega
      have := atoi_lt_of_strLess as bs hl ha.2 hb.2 h
      rw [hab, hl]
      omega
/-! ## The invalid-image filter -/

/-- C1: an image whose name does not match `^.*-([0-9]{12})$` is in the
delete-set of the invalid-image filter, whatever its tags and the current
instant. -/
theorem invalid_filter_selects_unmatched (now : Time) (images : List Image) (image : Image)
    (hmem : image ∈ images) (hrx : imageRxStamp image.Name = none) :
    image ∈ purgeInvalidImagesFilter now images := by
  rw [mem_purgeInvalidImagesFilter]
  exact ⟨hmem, by simp [invalidImageSelected, hrx]⟩

theorem invalid_filter_selects_unmatched_witness :
    imageNoStamp ∈ purgeInvalidImagesFilter nowSample [imageYoung, imageNoStamp] :=
  invalid_filter_selects_unmatched nowSample [imageYoung, imageNoStamp] imageNoStamp
    (by decide) (by decide)

/-- C2 as stated fails: the name of `imageLineFeed` ends in `-` and twelve
digits that are a timestamp one hour before `nowSample`, yet the filter selects
the image, because `.` does not match the line feed in its name. -/
theorem invalid_filter_young_counterexample :
    (∃ p, imageLineFeed.Name.data = p ++ '-' :: "201811040000".data)
      ∧ ("201811040000".data.length = 12 ∧ "201811040000".data.all isDigit = true)
      ∧ timeParse "201811040000".data = some ⟨63676886400, 0⟩
      ∧ nowSample.unixNano - (Time.mk 63676886400 0).unixNano < buildTimeout
      ∧ imageLineFeed ∈ purgeInvalidImagesFilter nowSample [imageLineFeed] :=
  ⟨⟨"rhel7\n".data, by decide⟩, by decide, by decide, by decide, by decide⟩

/-- C2, amended: an image whose name matches `^.*-([0-9]{12})$`, the digits
being a timestamp `t` with `now - t < buildTimeout`, is never in the delete-set
of the invalid-image filter, whatever its tags. -/
theorem invalid_filter_keeps_young (now : Time) (images : List Image) (image : Image)
    (stamp : List Char) (t : Time)
    (hrx : imageRxStamp image.Name = some stamp) (hparse : timeParse stamp = some t)
    (hage : now.unixNano - t.unixNano < buildTimeout) :
    image ∉ purgeInvalidImagesFilter now images := by
  rw [mem_purgeInvalidImagesFilter]
  have hsub : now.Sub t < buildTimeout :=
    (Sub_lt_iff now t buildTimeout buildTimeout_bounds.1 buildTimeout_bounds.2).2 hage
  simp [invalidImageSelected, parsedWithinBuildTimeout, hrx, hparse, hsub]

theorem invalid_filter_keeps_young_witness :
    imageYoung ∉ purgeInvalidImagesFilter nowSample [imageYoung, imageNoStamp] :=
  invalid_filter_keeps_young nowSample [imageYoung, imageNoStamp] imageYoung
    "201811040000".data ⟨63676886400, 0⟩ (by decide) (by decide) (by decide)

/-- C3: an image whose name matches `^.*-([0-9]{12})$`, with a timestamp `t`
such that `now - t >= buildTimeout`, is in the delete-set of the invalid-image
filter exactly when its `valid` tag is not `"true"` (absent included). -/
theorem invalid_filter_old_iff (now : Time) (images : List Image) (image : Image)
    (stamp : List Char) (t : Time) (hmem : image ∈ images)
    (hrx : imageRxStamp image.Name = some stamp) (hparse : timeParse stamp = some t)
    (hage : buildTimeout ≤ now.unixNano - t.unixNano) :
    image ∈ purgeInvalidImagesFilter now images
      ↔ tagLookup image.Tags "valid" ≠ some "true" := by
  rw [mem_purgeInvalidImagesFilter]
  have hsub : ¬ now.Sub t < buildTimeout := fun h =>
    absurd ((Sub_lt_iff now t buildTimeout buildTimeout_bounds.1 buildTimeout_bounds.2).1 h)
      (not_lt.2 hage)
  simp only [invalidImageSelected, parsedWithinBuildTimeout, hrx, hparse, hsub, decide_False,
    Bool.false_eq_true, if_false, hmem, true_and]
  cases tagLookup image.Tags "valid" <;> simp

theorem invalid_filter_old_iff_witness :
    imageOldValid ∈ purgeInvalidImagesFilter nowSample [imageOldValid]
      ↔ tagLookup imageOldValid.Tags "valid" ≠ some "true" :=
  invalid_filter_old_iff nowSample [imageOldValid] imageOldValid
    "201810040000".data ⟨63674208000, 0⟩ (by decide) (by decide) (by decide) (by decide)

/-! ## The retention filter -/

instance : IsTotal Image reverseByNameLe :=
  ⟨fun a b => by
    unfold reverseByNameLe byNameLess
    cases h : strLess a.Name.data b.Name.data
    · exact Or.inl rfl
    · exact Or.inr (strLess_asymm _ _ h)⟩

instance : IsTrans Image reverseByNameLe :=
  ⟨fun a b c h1 h2 => by
    unfold reverseByNameLe byNameLess at *
    exact strLess_ge_trans _ _ _ h1 h2⟩

theorem sortReverseByName_perm (images : List Image) :
    (sortReverseByName images).Perm images :=
  List.perm_insertionSort reverseByNameLe images

theorem sortReverseByName_sorted (images : List Image) :
    (sortReverseByName images).Sorted reverseByNameLe :=
  List.sorted_insertionSort reverseByNameLe images

/-- What `matchStamp` accepts: a part without line feed, `-`, twelve digits. -/
theorem matchStamp_eq_some_iff (s p d : List Char) :
    matchStamp s = some (p, d)
      ↔ s = p ++ '-' :: d ∧ d.length = 12 ∧ d.all isDigit = true ∧ p.all isDot = true := by
  unfold matchStamp
  constructor
  · intro h
    split_ifs at h with hlen
    split at h
    · rename_i c r hdrop
      split_ifs at h with hc
      obtain ⟨hc1, hc2, hc3⟩ := hc
      simp only [Option.some.injEq, Prod.mk.injEq] at h
      obtain ⟨hp, hd⟩ := h
      subst hd
      have hsplit := List.take_append_drop (s.length - 13) s
      rw [hdrop, hp, hc1] at hsplit
      have hl : (List.drop (s.length - 13) s).length = 13 := by
        rw [List.length_drop]; omega
      rw [hdrop, List.length_cons] at hl
      rw [hp] at hc3
      exact ⟨hsplit.symm, by omega, hc2, hc3⟩
    · exact absurd h (by simp)
  · rintro ⟨rfl, hd, hdig, hp⟩
    have hlen : (p ++ '-' :: d).length - 13 = p.length := by
      simp only [List.length_append, List.length_cons, hd]
      omega
    rw [if_pos (by simp only [List.length_append, List.length_cons, hd]; omega), hlen]
    simp [hdig, hp]

theorem imageRxPrefix_of_form (name : String) (p d : List Char)
    (hname : name.data = p ++ '-' :: d) (hd : d.length = 12) (hdig : d.all isDigit = true)
    (hp : p.all isDot = true) : imageRxPrefix name = some p := by
  have := (matchStamp_eq_some_iff name.data p d).2 ⟨hname, hd, hdig, hp⟩
  simp [imageRxPrefix, this]

/-- The walk over images that all match with the prefix the walk remembers: the
counter runs on, and the entries that bring it above `keepImages` are
deleted. -/
theorem foldl_walkStep_same (p : List Char) (l : List Image)
    (hl : ∀ image ∈ l, imageRxPrefix image.Name = some p) (del : List Image) (i : Nat) :
    l.foldl walkStep ⟨del, some p, i⟩
      = ⟨del ++ l.drop (keepImages - i), some p, i + l.length⟩ := by
  induction l generalizing del i with
  | nil => simp
  | cons x xs ih =>
    have hx := hl x (List.mem_cons_self x xs)
    have hxs : ∀ image ∈ xs, imageRxPrefix image.Name = some p :=
      fun image h => hl image (List.mem_cons_of_mem x h)
    rw [List.foldl_cons]
    by_cases hi : keepImages < i + 1
    · have hstep : walkStep ⟨del, some p, i⟩ x = ⟨del ++ [x], some p, i + 1⟩ := by
        simp [walkStep, hx, hi]
      have h0 : keepImages - i = 0 := by omega
      have h1 : keepImages - (i + 1) = 0 := by omega
      rw [hstep, ih hxs, h0, h1]
      simp only [List.drop_zero, List.append_assoc, List.singleton_append, List.length_cons,
        WalkState.mk.injEq, true_and]
      omega
    · have hstep : walkStep ⟨del, some p, i⟩ x = ⟨del, some p, i + 1⟩ := by
        simp [walkStep, hx, hi]
      have h0 : keepImages - i = (keepImages - (i + 1)) + 1 := by omega
      rw [hstep, ih hxs, h0]
      simp only [List.drop_succ_cons, List.length_cons, WalkState.mk.injEq, true_and]
      omega

theorem walk_same_prefix (p : List Char) (l : List Image)
    (hl : ∀ image ∈ l, imageRxPrefix image.Name = some p) :
    (l.foldl walkStep ⟨[], none, 0⟩).toDelete = l.drop keepImages := by
  cases l with
  | nil => rfl
  | cons x xs =>
    have hx := hl x (List.mem_cons_self x xs)
    have hxs : ∀ image ∈ xs, imageRxPrefix image.Name = some p :=
      fun image h => hl image (List.mem_cons_of_mem x h)
    have hstep : walkStep ⟨[], none, 0⟩ x = ⟨[], some p, 1⟩ := by
      simp [walkStep, hx]
    rw [List.foldl_cons, hstep, foldl_walkStep_same p xs hxs]
    simp [keepImages]

/-- C4 as stated fails: `a-1` .. `a-6` do not end in twelve digits, so none of
them matches and the retention filter selects all six, not `a-1` alone. -/
theorem retention_short_names_counterexample :
    purgeOldImagesFilter imagesShort = imagesShort
      ∧ purgeOldImagesFilter imagesShort ≠ [⟨"a-1", []⟩] := by
  decide

/-- C4, amended: of six images `a-000000000001` .. `a-000000000006` (names with
twelve digits, sorted descending) the retention filter selects exactly
`a-000000000001`, whatever the tags. -/
theorem retention_six_images (t1 t2 t3 t4 t5 t6 : Tags) :
    purgeOldImagesFilter
        [⟨"a-000000000006", t6⟩, ⟨"a-000000000005", t5⟩, ⟨"a-000000000004", t4⟩,
          ⟨"a-000000000003", t3⟩, ⟨"a-000000000002", t2⟩, ⟨"a-000000000001", t1⟩]
      = [⟨"a-000000000001", t1⟩] := by
  rfl

theorem form_of_imageRxPrefix (name : String) (p : List Char)
    (h : imageRxPrefix name = some p) :
    ∃ d : List Char, d.length = 12 ∧ d.all isDigit = true ∧ name.data = p ++ '-' :: d := by
  unfold imageRxPrefix at h
  cases hm : matchStamp name.data with
  | none => simp [hm] at h
  | some pd =>
    obtain ⟨p', d⟩ := pd
    simp only [hm, Option.map_some', Option.some.injEq] at h
    subst h
    obtain ⟨h1, h2, h3, _⟩ := (matchStamp_eq_some_iff name.data p' d).1 hm
    exact ⟨d, h2, h3, h1⟩

theorem embeddedStamp_of_form (name : String) (p d : List Char)
    (hname : name.data = p ++ '-' :: d) (hd : d.length = 12) :
    embeddedStamp name = atoi d := by
  unfold embeddedStamp
  rw [hname]
  have hlen : (p ++ '-' :: d).length - 12 = (p ++ ['-']).length := by
    simp only [List.length_append, List.length_cons, List.length_nil, hd]
    omega
  have happ : p ++ '-' :: d = (p ++ ['-']) ++ d := by simp
  rw [hlen, happ, List.drop_left]

/-- C5 as stated fails: the one image of `imagesLineFeedPrefix` has a name of
the form `p-<12 digits>` with `p` holding a line feed; it does not match, and
the retention filter selects it although the listing has fewer than six
images. -/
theorem retention_single_prefix_counterexample :
    (∀ image ∈ imagesLineFeedPrefix, ∃ d : List Char, d.length = 12 ∧ d.all isDigit = true
        ∧ image.Name.data = "rhel7\n".data ++ '-' :: d)
      ∧ (imagesLineFeedPrefix.map fun image => image.Name).Nodup
      ∧ imagesLineFeedPrefix.length ≤ keepImages
      ∧ purgeOldImagesFilter imagesLineFeedPrefix ≠ [] := by
  refine ⟨?_, by decide, by decide, by decide⟩
  intro image h
  simp only [imagesLineFeedPrefix, List.mem_singleton] at h
  subst h
  exact ⟨"201811040000".data, by decide, by decide, by decide⟩

/-- C5, amended: for a prefix `p` without line feed and a listing, in any order,
of `n` images with pairwise distinct names of the form `p-<12 digits>`, the
delete-set of the retention filter consists of `n - 5` distinct images of the
listing, each with a smaller embedded timestamp than every image that is kept;
it is empty when `n <= 5`. -/
theorem retention_single_prefix (p : List Char) (images : List Image)
    (hp : p.all isDot = true)
    (hform : ∀ image ∈ images, ∃ d : List Char, d.length = 12 ∧ d.all isDigit = true
      ∧ image.Name.data = p ++ '-' :: d)
    (hnodup : (images.map fun image => image.Name).Nodup) :
    (purgeOldImagesFilter images).length = images.length - keepImages
      ∧ (purgeOldImagesFilter images).Nodup
      ∧ (∀ x ∈ purgeOldImagesFilter images, x ∈ images)
      ∧ (∀ x ∈ purgeOldImagesFilter images, ∀ y ∈ images, y ∉ purgeOldImagesFilter images →
          embeddedStamp x.Name < embeddedStamp y.Name)
      ∧ (images.length ≤ keepImages → purgeOldImagesFilter images = []) := by
  have hperm := sortReverseByName_perm images
  have hsorted := sortReverseByName_sorted images
  have hpre : ∀ image ∈ sortReverseByName images, imageRxPrefix image.Name = some p := by
    intro image h
    obtain ⟨d, hd, hdig, hname⟩ := hform image (hperm.mem_iff.1 h)
    exact imageRxPrefix_of_form image.Name p d hname hd hdig hp
  have heq : purgeOldImagesFilter images = (sortReverseByName images).drop keepImages :=
    walk_same_prefix p _ hpre
  have hlen : (purgeOldImagesFilter images).length = images.length - keepImages := by
    rw [heq, List.length_drop, hperm.length_eq]
  have hnd : (sortReverseByName images).Nodup :=
    hperm.nodup_iff.2 (List.Nodup.of_map _ hnodup)
  have hndmap : ((sortReverseByName images).map fun image => image.Name).Nodup :=
    (hperm.map _).nodup_iff.2 hnodup
  refine ⟨hlen, ?_, ?_, ?_, ?_⟩
  · rw [heq]
    exact hnd.sublist (List.drop_sublist _ _)
  · intro x hx
    rw [heq] at hx
    exact hperm.mem_iff.1 (List.mem_of_mem_drop hx)
  · intro x hx y hy hynot
    rw [heq] at hx hynot
    have hys : y ∈ sortReverseByName images := hperm.mem_iff.2 hy
    have hxs : x ∈ sortReverseByName images := List.mem_of_mem_drop hx
    have hytake : y ∈ (sortReverseByName images).take keepImages := by
      rw [← List.take_append_drop keepImages (sortReverseByName images)] at hys
      rcases List.mem_append.1 hys with h | h
      · exact h
      · exact absurd h hynot
    have hrel : reverseByNameLe y x := hsorted.rel_of_mem_take_of_mem_drop hytake hx
    have hne : x.Name ≠ y.Name := by
      intro hxy
      have : x = y := List.inj_on_of_nodup_map hndmap hxs hys hxy
      exact hynot (this ▸ hx)
    have hless : strLess x.Name.data y.Name.data = true := by
      cases h : strLess x.Name.data y.Name.data with
      | true => rfl
      | false =>
        exfalso
        apply hne
        have hd : x.Name.data = y.Name.data := strLess_connex _ _ h hrel
        exact String.ext hd
    obtain ⟨dx, hdx, hdigx, hnx⟩ := hform x (hperm.mem_iff.1 hxs)
    obtain ⟨dy, hdy, hdigy, hny⟩ := hform y hy
    rw [embeddedStamp_of_form x.Name p dx hnx hdx, embeddedStamp_of_form y.Name p dy hny hdy]
    rw [hnx, hny, strLess_append_left] at hless
    have hless2 : strLess dx dy = true := by
      simpa [strLess] using hless
    exact atoi_lt_of_strLess dx dy (by rw [hdx, hdy]) hdigx hdigy hless2
  · intro hle
    apply List.eq_nil_of_length_eq_zero
    rw [hlen]
    omega

theorem retention_single_prefix_witness :
    (purgeOldImagesFilter imagesSeven).length = imagesSeven.length - keepImages
      ∧ (purgeOldImagesFilter imagesSeven).Nodup
      ∧ (∀ x ∈ purgeOldImagesFilter imagesSeven, x ∈ imagesSeven)
      ∧ (∀ x ∈ purgeOldImagesFilter imagesSeven, ∀ y ∈ imagesSeven,
          y ∉ purgeOldImagesFilter imagesSeven → embeddedStamp x.Name < embeddedStamp y.Name)
      ∧ (imagesSeven.length ≤ keepImages → purgeOldImagesFilter imagesSeven = []) :=
  retention_single_prefix "rhel7".data imagesSeven (by decide)
    (fun image h => form_of_imageRxPrefix image.Name "rhel7".data
      ((by decide : ∀ image ∈ imagesSeven, imageRxPrefix image.Name = some "rhel7".data) image h))
    (by decide)

/-- C6: evaluation at a failing input. Of the seven images of
`imagesInterleaved`, six have the prefix `rhel7`; the name of the seventh sorts
between them and restarts the counter, so the delete-set is empty and six
images of prefix `rhel7`, more than `keepImages`, are left. -/
theorem retention_interleaved_keeps_six :
    purgeOldImagesFilter imagesInterleaved = []
      ∧ (imagesInterleaved.filter fun image =>
          decide (imageRxPrefix image.Name = some "rhel7".data
            ∧ image ∉ purgeOldImagesFilter imagesInterleaved)).length = 6
      ∧ keepImages = 5 := by
  decide

/-- C7 as stated fails: in `imagesUnmatchedInside` a name that does not match
stands between images of one prefix; the code leaves the counter as it is and
deletes the oldest image, the walk that resets the counter there keeps it. -/
theorem retention_reference_counterexample :
    purgeOldImagesFilter imagesUnmatchedInside
        ≠ referenceWalk true none 0 (sortReverseByName imagesUnmatchedInside)
      ∧ (⟨"rhel7-201811010000", []⟩ : Image) ∈ purgeOldImagesFilter imagesUnmatchedInside
      ∧ (⟨"rhel7-201811010000", []⟩ : Image)
          ∉ referenceWalk true none 0 (sortReverseByName imagesUnmatchedInside) := by
  decide

theorem foldl_walkStep_reference (l : List Image) (del : List Image)
    (last : Option (List Char)) (i : Nat) :
    (l.foldl walkStep ⟨del, last, i⟩).toDelete = del ++ referenceWalk false last i l := by
  induction l generalizing del last i with
  | nil => simp [referenceWalk]
  | cons x xs ih =>
    rw [List.foldl_cons]
    cases hx : imageRxPrefix x.Name with
    | none =>
      have hstep : walkStep ⟨del, last, i⟩ x = ⟨del ++ [x], last, i⟩ := by
        simp [walkStep, hx]
      rw [hstep, ih]
      simp [referenceWalk, hx]
    | some p =>
      by_cases hlast : last = some p
      · subst hlast
        by_cases hi : keepImages < i + 1
        · have hstep : walkStep ⟨del, some p, i⟩ x = ⟨del ++ [x], some p, i + 1⟩ := by
            simp [walkStep, hx, hi]
          rw [hstep, ih]
          simp [referenceWalk, hx, hi]
        · have hstep : walkStep ⟨del, some p, i⟩ x = ⟨del, some p, i + 1⟩ := by
            simp [walkStep, hx, hi]
          rw [hstep, ih]
          simp [referenceWalk, hx, hi]
      · have hcond : last = none ∨ some p ≠ last := by
          cases last with
          | none => exact Or.inl rfl
          | some q => exact Or.inr (fun h => hlast h.symm)
        have hstep : walkStep ⟨del, last, i⟩ x = ⟨del, some p, 1⟩ := by
          simp only [walkStep, hx]
          rw [if_pos hcond]
        rw [hstep, ih]
        simp [referenceWalk, hx, hlast]

/-- C7, amended: for every listing, the delete-set of the retention filter is
that of the walk, in descending order of name, in which the counter is set to 1
on the first occurrence of a new prefix, incremented on repeats and left as it
is by a name that does not match; names that do not match are deleted, and so
are entries beyond the fifth counted occurrence. -/
theorem retention_refines_reference (images : List Image) :
    purgeOldImagesFilter images = referenceWalk false none 0 (sortReverseByName images) := by
  unfold purgeOldImagesFilter
  rw [foldl_walkStep_reference]
  simp

/-! ## The blob filter -/

theorem mem_purgeBlobsFilter (now : Time) (images : List Image) (blobs : List Blob)
    (blob : Blob) :
    blob ∈ purgeBlobsFilter now images blobs
      ↔ blob ∈ blobs ∧ blobSelected now images blob = true := by
  simp [purgeBlobsFilter, foldl_append_if]

/-- What `blobRxStamp` accepts: anything, `-`, twelve digits, `.vhd`. -/
theorem blobRxStamp_eq_some_iff (name : String) (d : List Char) :
    blobRxStamp name = some d
      ↔ ∃ p : List Char, name.data = p ++ '-' :: d ++ ['.', 'v', 'h', 'd']
          ∧ d.length = 12 ∧ d.all isDigit = true := by
  unfold blobRxStamp
  constructor
  · intro h
    simp only at h
    split_ifs at h with hlen
    split at h
    · rename_i c r hdrop
      split_ifs at h with hc
      obtain ⟨hc1, hc2, hc3⟩ := hc
      simp only [Option.some.injEq] at h
      have hsplit := List.take_append_drop (name.data.length - 17) name.data
      have hr := List.take_append_drop 12 r
      rw [h, hc3] at hr
      have hl : (List.drop (name.data.length - 17) name.data).length = 17 := by
        rw [List.length_drop]; omega
      rw [hdrop, List.length_cons, ← hr, List.length_append] at hl
      rw [h] at hc2
      refine ⟨name.data.take (name.data.length - 17), ?_, ?_, hc2⟩
      · rw [hdrop, hc1, ← hr] at hsplit
        rw [List.append_assoc, List.cons_append]
        exact hsplit.symm
      · simp only [List.length_cons, List.length_nil] at hl
        omega
    · exact absurd h (by simp)
  · rintro ⟨p, hname, hd, hdig⟩
    have hlen : name.data.length - 17 = p.length := by
      rw [hname]
      simp only [List.length_append, List.length_cons, List.length_nil, hd]
      omega
    have hge : 17 ≤ name.data.length := by
      rw [hname]
      simp only [List.length_append, List.length_cons, List.length_nil, hd]
      omega
    simp only
    rw [if_pos hge, hlen, hname]
    have h12 : List.take 12 (d ++ ['.', 'v', 'h', 'd']) = d := by
      rw [← hd, List.take_left]
    have h12d : List.drop 12 (d ++ ['.', 'v', 'h', 'd']) = ['.', 'v', 'h', 'd'] := by
      rw [← hd, List.drop_left]
    simp [h12, h12d, hdig]

theorem allowedBlob_iff (images : List Image) (name : String) :
    allowedBlob images name = true ↔ ∃ image ∈ images, name = image.Name ++ ".vhd" := by
  simp only [allowedBlob, List.any_eq_true, decide_eq_true_eq]
  constructor
  · rintro ⟨image, h, he⟩
    exact ⟨image, h, he.symm⟩
  · rintro ⟨image, h, he⟩
    exact ⟨image, h, he.symm⟩

/-- C8: a listed blob is kept by the blob filter exactly when its name is
`<image-name>.vhd` for a live image (however old the blob is), or its name ends
in `-`, twelve digits and `.vhd`, the digits being a timestamp `t` with
`now - t < buildTimeout`; every other listed blob is in the delete-set. -/
theorem blob_filter_keeps_iff (now : Time) (images : List Image) (blobs : List Blob)
    (blob : Blob) (hmem : blob ∈ blobs) :
    blob ∉ purgeBlobsFilter now images blobs
      ↔ (∃ image ∈ images, blob.Name = image.Name ++ ".vhd")
        ∨ (∃ (p d : List Char) (t : Time),
            blob.Name.data = p ++ '-' :: d ++ ['.', 'v', 'h', 'd']
              ∧ d.length = 12 ∧ d.all isDigit = true
              ∧ timeParse d = some t ∧ now.unixNano - t.unixNano < buildTimeout) := by
  rw [mem_purgeBlobsFilter, ← allowedBlob_iff]
  simp only [hmem, true_and, Bool.not_eq_true]
  have hsub : ∀ t : Time, now.Sub t < buildTimeout ↔ now.unixNano - t.unixNano < buildTimeout :=
    fun t => Sub_lt_iff now t buildTimeout buildTimeout_bounds.1 buildTimeout_bounds.2
  unfold blobSelected
  cases hallow : allowedBlob images blob.Name with
  | true => simp
  | false =>
    simp only [Bool.false_eq_true, if_false, false_or]
    cases hrx : blobRxStamp blob.Name with
    | none =>
      simp only [Bool.true_eq_false, false_iff]
      rintro ⟨p, d, t, hname, hd, hdig, _, _⟩
      have := (blobRxStamp_eq_some_iff blob.Name d).2 ⟨p, hname, hd, hdig⟩
      rw [hrx] at this
      exact absurd this (by simp)
    | some stamp =>
      obtain ⟨p, hname, hd, hdig⟩ := (blobRxStamp_eq_some_iff blob.Name stamp).1 hrx
      have huniq : ∀ (q e : List Char), blob.Name.data = q ++ '-' :: e ++ ['.', 'v', 'h', 'd'] →
          e.length = 12 → e.all isDigit = true → e = stamp := by
        intro q e hq he hdige
        have := (blobRxStamp_eq_some_iff blob.Name e).2 ⟨q, hq, he, hdige⟩
        rw [hrx] at this
        exact (Option.some.inj this).symm
      cases hparse : timeParse stamp with
      | none =>
        simp only [parsedWithinBuildTimeout, hparse, Bool.false_eq_true, if_false,
          Bool.true_eq_false, false_iff]
        rintro ⟨q, e, t, hq, he, hdige, hpe, _⟩
        rw [huniq q e hq he hdige, hparse] at hpe
        exact absurd hpe (by simp)
      | some t =>
        simp only [parsedWithinBuildTimeout, hparse]
        by_cases hyoung : now.Sub t < buildTimeout
        · simp only [hyoung, decide_True, if_true, true_iff]
          exact ⟨p, stamp, t, hname, hd, hdig, hparse, (hsub t).1 hyoung⟩
        · simp only [hyoung, decide_False, Bool.false_eq_true, if_false, Bool.true_eq_false,
            false_iff]
          rintro ⟨q, e, t2, hq, he, hdige, hpe, hage⟩
          rw [huniq q e hq he hdige, hparse] at hpe
          have ht : t = t2 := Option.some.inj hpe
          subst ht
          exact hyoung ((hsub t).2 hage)

theorem blob_filter_keeps_iff_witness :
    blobOfImage ∉ purgeBlobsFilter nowSample [imageOldValid] [blobOfImage]
      ↔ (∃ image ∈ [imageOldValid], blobOfImage.Name = image.Name ++ ".vhd")
        ∨ (∃ (p d : List Char) (t : Time),
            blobOfImage.Name.data = p ++ '-' :: d ++ ['.', 'v', 'h', 'd']
              ∧ d.length = 12 ∧ d.all isDigit = true
              ∧ timeParse d = some t ∧ nowSample.unixNano - t.unixNano < buildTimeout) :=
  blob_filter_keeps_iff nowSample [imageOldValid] [blobOfImage] blobOfImage (by decide)

/-! ## The group filter -/

theorem mem_purgeGroupsFilter (now : Time) (groups : List Group) (group : Group) :
    group ∈ purgeGroupsFilter now groups
      ↔ group ∈ groups ∧ groupSelected now group = true := by
  simp [purgeGroupsFilter, foldl_append_if]

theorem tagLookup_of_no_key (tags : Tags) (key : String)
    (h : ∀ v, (key, v) ∉ tags) : tagLookup tags key = none := by
  induction tags with
  | nil => rfl
  | cons kv rest ih =>
    obtain ⟨k, v⟩ := kv
    have hk : k ≠ key := by
      intro hk
      exact h v (by simp [hk])
    simp only [tagLookup, hk, if_false]
    exact ih (fun w hw => h w (List.mem_cons_of_mem _ hw))

/-- C9: a resource group whose tag set has no `now` key is never in the
delete-set of the group filter, whatever the current instant and its other
tags. -/
theorem group_filter_keeps_untagged (now : Time) (groups : List Group) (group : Group)
    (hno : ∀ v, ("now", v) ∉ group.Tags) :
    group ∉ purgeGroupsFilter now groups := by
  rw [mem_purgeGroupsFilter]
  simp [groupSelected, tagLookup_of_no_key group.Tags "now" hno]

theorem group_filter_keeps_untagged_witness :
    groupUntagged ∉ purgeGroupsFilter nowSample [groupUntagged, groupFarFuture] :=
  group_filter_keeps_untagged nowSample [groupUntagged, groupFarFuture] groupUntagged
    (fun v h => by simp [groupUntagged] at h)

/-- C10: evaluation at a failing input. The tag `9223372036854775807` parses as
the 64-bit integer `2^63 - 1`, an instant far after `nowSample`, so that
`now - t >= groupTimeout` is false; `time.Unix` wraps on it, and the group
filter selects the group. -/
theorem group_filter_far_future_selected :
    tagLookup groupFarFuture.Tags "now" = some "9223372036854775807"
      ∧ ParseInt "9223372036854775807" = some (2 ^ 63 - 1)
      ∧ ¬ (groupTimeout ≤ nowSample.unixNano - (2 ^ 63 - 1) * Second)
      ∧ groupFarFuture ∈ purgeGroupsFilter nowSample [groupFarFuture] := by
  decide

theorem bind_nonneg_range (o : Option Nat) (t : Int)
    (h : (o.bind fun un => if un < 2 ^ 63 then some (un : Int) else none) = some t) :
    -(2 ^ 63) ≤ t ∧ t < 2 ^ 63 := by
  cases o with
  | none => exact absurd h (by simp)
  | some un =>
    change (if un < 2 ^ 63 then some (un : Int) else none) = some t at h
    split_ifs at h
    have := Option.some.inj h
    omega

theorem bind_neg_range (o : Option Nat) (t : Int)
    (h : (o.bind fun un => if un ≤ 2 ^ 63 then some (-(un : Int)) else none) = some t) :
    -(2 ^ 63) ≤ t ∧ t < 2 ^ 63 := by
  cases o with
  | none => exact absurd h (by simp)
  | some un =>
    change (if un ≤ 2 ^ 63 then some (-(un : Int)) else none) = some t at h
    split_ifs at h
    have := Option.some.inj h
    omega

theorem ParseInt_range (s : String) (t : Int) (h : ParseInt s = some t) :
    -(2 ^ 63) ≤ t ∧ t < 2 ^ 63 := by
  unfold ParseInt at h
  split at h
  · exact absurd h (by simp)
  · split_ifs at h
    · exact bind_nonneg_range _ t h
    · exact bind_neg_range _ t h
    · exact bind_nonneg_range _ t h

theorem wrapInt64_of_range (x : Int) (h1 : -(2 ^ 63) ≤ x) (h2 : x < 2 ^ 63) :
    wrapInt64 x = x := by
  unfold wrapInt64
  omega

/-- Within the range where `time.Unix` does not wrap (`t + unixToInternal` fits
64 bits), a listed group whose `now` tag parses as `t` is in the delete-set of
the group filter exactly when `now - t >= groupTimeout`. -/
theorem group_filter_iff_in_range (now : Time) (groups : List Group) (group : Group)
    (timestamp : String) (t : Int) (hmem : group ∈ groups)
    (htag : tagLookup group.Tags "now" = some timestamp)
    (hparse : ParseInt timestamp = some t) (hrange : t + unixToInternal < 2 ^ 63) :
    group ∈ purgeGroupsFilter now groups ↔ groupTimeout ≤ now.unixNano - t * Second := by
  rw [mem_purgeGroupsFilter]
  have hlow := (ParseInt_range timestamp t hparse).1
  have hwrap : wrapInt64 (t + unixToInternal) = t + unixToInternal :=
    wrapInt64_of_range _ (by unfold unixToInternal at *; omega) hrange
  have hunix : (Unix t).unixNano = t * Second := by
    simp only [Unix, Time.unixNano, hwrap]
    ring
  have hsub := Sub_lt_iff now (Unix t) groupTimeout groupTimeout_bounds.1 groupTimeout_bounds.2
  rw [hunix] at hsub
  simp only [groupSelected, htag, hparse, hmem, true_and]
  by_cases h : now.Sub (Unix t) < groupTimeout
  · have := hsub.1 h
    simp only [h, if_true, Bool.false_eq_true, false_iff, not_le]
    exact this
  · have : ¬ now.unixNano - t * Second < groupTimeout := fun h2 => h (hsub.2 h2)
    simp only [h, if_false, true_iff]
    exact not_lt.1 this

/-- The boundary of the group filter at `nowSample` (Unix time 1541293200, with
`groupTimeout` of 259200 seconds): the tag `1541293200 - 259200 - 1` is
selected, the tag `1541293200 - 259200 + 1` is not. -/
theorem group_filter_boundary_sample :
    nowSample.unixNano = 1541293200 * Second
      ∧ groupTimeout = 259200 * Second
      ∧ purgeGroupsFilter nowSample [groupExpired, groupNotExpired] = [groupExpired] := by
  decide

/-- C11 as stated fails: the tag `abc` of `groupBadTag` does not parse (no more
than the empty tag, `1.5`, or a number beyond the 64-bit range), and the group
filter selects the group. -/
theorem group_filter_unparsable_counterexample :
    tagLookup groupBadTag.Tags "now" = some "abc"
      ∧ ParseInt "abc" = none ∧ ParseInt "" = none ∧ ParseInt "1.5" = none
      ∧ ParseInt "9223372036854775808" = none
      ∧ groupBadTag ∈ purgeGroupsFilter nowSample [groupBadTag] := by
  decide

/-- C11, amended: a listed resource group whose `now` tag is present but does
not parse as a base-10 64-bit integer is treated as expired: it is in the
delete-set of the group filter, whatever the current instant. -/
theorem group_filter_selects_unparsable (now : Time) (groups : List Group) (group : Group)
    (timestamp : String) (hmem : group ∈ groups)
    (htag : tagLookup group.Tags "now" = some timestamp)
    (hparse : ParseInt timestamp = none) :
    group ∈ purgeGroupsFilter now groups := by
  rw [mem_purgeGroupsFilter]
  exact ⟨hmem, by simp [groupSelected, htag, hparse]⟩

theorem group_filter_selects_unparsable_witness :
    groupBadTag ∈ purgeGroupsFilter nowSample [groupUntagged, groupBadTag] :=
  group_filter_selects_unparsable nowSample [groupUntagged, groupBadTag] groupBadTag "abc"
    (by decide) (by decide) (by decide)

/-! ## Names whose digits are not a timestamp -/

/-- When `time.Parse` rejects twelve digits: the month is not in 1..12, or the
hour is above 23, or the minute above 59, or the day is not a day of that
month. -/
theorem timeParse_eq_none_iff (value : List Char) :
    timeParse value = none
      ↔ (atoi ((value.drop 4).take 2) = 0 ∨ 12 < atoi ((value.drop 4).take 2))
        ∨ 24 ≤ atoi ((value.drop 8).take 2)
        ∨ 60 ≤ atoi ((value.drop 10).take 2)
        ∨ (atoi ((value.drop 6).take 2) < 1
          ∨ daysIn (atoi ((value.drop 4).take 2)) (atoi (value.take 4))
              < atoi ((value.drop 6).take 2)) := by
  unfold timeParse
  simp only
  split_ifs <;> simp_all

/-- C16 as stated fails: the name of `imageMonth13LineFeed` ends in `-` and
twelve digits with month 13, and the image is tagged valid, yet the filter
selects it, because its name holds a line feed and does not match. -/
theorem invalid_filter_bad_stamp_counterexample :
    (∃ p, imageMonth13LineFeed.Name.data = p ++ '-' :: "201813040000".data)
      ∧ ("201813040000".data.length = 12 ∧ "201813040000".data.all isDigit = true)
      ∧ timeParse "201813040000".data = none
      ∧ tagLookup imageMonth13LineFeed.Tags "valid" = some "true"
      ∧ imageMonth13LineFeed ∈ purgeInvalidImagesFilter nowSample [imageMonth13LineFeed] :=
  ⟨⟨"rhel7\n".data, by decide⟩, by decide, by decide, by decide, by decide⟩

/-- C16, amended: a listed image whose name matches `^.*-([0-9]{12})$`, the
twelve digits not being a timestamp that `time.Parse` accepts, gets no grace
period: it is in the delete-set of the invalid-image filter exactly when its
`valid` tag is not `"true"` (absent included), whatever the current instant. -/
theorem invalid_filter_bad_stamp_iff (now : Time) (images : List Image) (image : Image)
    (stamp : List Char) (hmem : image ∈ images)
    (hrx : imageRxStamp image.Name = some stamp) (hparse : timeParse stamp = none) :
    image ∈ purgeInvalidImagesFilter now images
      ↔ tagLookup image.Tags "valid" ≠ some "true" := by
  rw [mem_purgeInvalidImagesFilter]
  simp only [invalidImageSelected, parsedWithinBuildTimeout, hrx, hparse, Bool.false_eq_true,
    if_false, hmem, true_and]
  cases tagLookup image.Tags "valid" <;> simp

theorem invalid_filter_bad_stamp_iff_witness :
    imageMonth13 ∈ purgeInvalidImagesFilter nowSample [imageMonth13]
      ↔ tagLookup imageMonth13.Tags "valid" ≠ some "true" :=
  invalid_filter_bad_stamp_iff nowSample [imageMonth13] imageMonth13
    "201813040000".data (by decide) (by decide) (by decide)

/-! ## Safety of the retention filter -/

/-- The invariant of the walk: the counter `n` counts images already walked
(`pre`) that all have the remembered prefix, so an image deleted with a
matching name has at least `keepImages` images of its prefix before it. -/
theorem referenceWalk_run (l : List Image) :
    ∀ (pre : List Image) (last : Option (List Char)) (n : Nat),
      (∃ run : List Image, run.Sublist pre ∧ run.length = n
        ∧ ∀ r ∈ run, imageRxPrefix r.Name = last) →
      ∀ x ∈ referenceWalk false last n l, ∀ p, imageRxPrefix x.Name = some p →
        ∃ (pre2 post run : List Image), pre ++ l = pre2 ++ x :: post ∧ run.Sublist pre2
          ∧ keepImages ≤ run.length ∧ ∀ r ∈ run, imageRxPrefix r.Name = some p := by
  induction l with
  | nil =>
    intro pre last n _ x hx
    simp [referenceWalk] at hx
  | cons y rest ih =>
    intro pre last n hinv x hx p hp
    obtain ⟨run, hsub, hlen, hrun⟩ := hinv
    have hassoc : pre ++ y :: rest = (pre ++ [y]) ++ rest := by simp
    have hsub1 : run.Sublist (pre ++ [y]) :=
      hsub.trans (List.sublist_append_left pre [y])
    cases hy : imageRxPrefix y.Name with
    | none =>
      simp only [referenceWalk, hy, Bool.false_eq_true, if_false, List.mem_cons] at hx
      rcases hx with rfl | hx
      · rw [hy] at hp
        exact absurd hp (by simp)
      · rw [hassoc]
        exact ih (pre ++ [y]) last n ⟨run, hsub1, hlen, hrun⟩ x hx p hp
    | some q =>
      have hsub2 : (run ++ [y]).Sublist (pre ++ [y]) :=
        List.Sublist.append hsub (List.Sublist.refl [y])
      by_cases hlast : last = some q
      · have hrun2 : ∀ r ∈ run ++ [y], imageRxPrefix r.Name = some q := by
          intro r hr
          rcases List.mem_append.1 hr with h | h
          · rw [hrun r h, hlast]
          · rw [List.mem_singleton.1 h, hy]
        have hlen2 : (run ++ [y]).length = n + 1 := by simp [hlen]
        by_cases hn : keepImages < n + 1
        · simp only [referenceWalk, hy, hlast, if_true, hn, List.mem_cons] at hx
          rcases hx with rfl | hx
          · rw [hy] at hp
            have hqp : q = p := Option.some.inj hp
            refine ⟨pre, rest, run, rfl, hsub, by omega, ?_⟩
            intro r hr
            rw [hrun r hr, hlast, hqp]
          · rw [hassoc]
            exact ih (pre ++ [y]) (some q) (n + 1) ⟨run ++ [y], hsub2, hlen2, hrun2⟩ x hx p hp
        · simp only [referenceWalk, hy, hlast, if_true, hn, if_false] at hx
          rw [hassoc]
          exact ih (pre ++ [y]) (some q) (n + 1) ⟨run ++ [y], hsub2, hlen2, hrun2⟩ x hx p hp
      · simp only [referenceWalk, hy, hlast, if_false] at hx
        rw [hassoc]
        refine ih (pre ++ [y]) (some q) 1 ⟨[y], ?_, rfl, ?_⟩ x hx p hp
        · exact List.sublist_append_right pre [y]
        · intro r hr
          rw [List.mem_singleton.1 hr, hy]

/-- C15 as stated fails: the one image of `imagesLineFeedPrefix` has a name of
the form `<prefix>-<12 digits>` (the prefix holding a line feed), the retention
filter selects it, and the listing has no other image at all. -/
theorem retention_safety_counterexample :
    (imagesLineFeedPrefix.map fun image => image.Name).Nodup
      ∧ (∃ p d : List Char, d.length = 12 ∧ d.all isDigit = true
          ∧ (⟨"rhel7\n-201811040000", []⟩ : Image).Name.data = p ++ '-' :: d)
      ∧ (⟨"rhel7\n-201811040000", []⟩ : Image) ∈ purgeOldImagesFilter imagesLineFeedPrefix
      ∧ (imagesLineFeedPrefix.filter fun y =>
          decide (y ≠ (⟨"rhel7\n-201811040000", []⟩ : Image))).length < keepImages :=
  ⟨by decide, ⟨"rhel7\n".data, "201811040000".data, by decide, by decide, by decide⟩,
    by decide, by decide⟩

/-- C15, amended: in a listing of images with pairwise distinct names, every
image whose name matches `^(.*)-[0-9]{12}$` with prefix `p` and which the
retention filter selects has at least `keepImages` images of the listing with
the same prefix `p` and a greater name: the filter never deletes one of the
five most recent images of a prefix. -/
theorem retention_keeps_recent (images : List Image)
    (hnodup : (images.map fun image => image.Name).Nodup) (x : Image) (p : List Char)
    (hx : x ∈ purgeOldImagesFilter images) (hp : imageRxPrefix x.Name = some p) :
    keepImages ≤ (images.filter fun y =>
      decide (imageRxPrefix y.Name = some p) && strLess x.Name.data y.Name.data).length := by
  have hperm := sortReverseByName_perm images
  have hsorted := sortReverseByName_sorted images
  unfold purgeOldImagesFilter at hx
  rw [foldl_walkStep_reference, List.nil_append] at hx
  obtain ⟨pre2, post, run, hs, hsub, hlen, hrun⟩ :=
    referenceWalk_run (sortReverseByName images) [] none 0
      ⟨[], List.Sublist.refl [], rfl, by simp⟩ x hx p hp
  rw [List.nil_append] at hs
  have hndmap : ((sortReverseByName images).map fun image => image.Name).Nodup :=
    (hperm.map _).nodup_iff.2 hnodup
  rw [hs] at hsorted hndmap
  have hbefore : ∀ r ∈ pre2, strLess x.Name.data r.Name.data = true := by
    intro r hr
    have hrel : reverseByNameLe r x :=
      (List.pairwise_append.1 hsorted).2.2 r hr x (List.mem_cons_self x post)
    have hne : r.Name ≠ x.Name := by
      rw [List.map_append, List.map_cons] at hndmap
      have hdisj := (List.nodup_append.1 hndmap).2.2
      intro heq
      exact hdisj (List.mem_map_of_mem (fun image => image.Name) hr)
        (by rw [heq]; exact List.mem_cons_self _ _)
    cases h : strLess x.Name.data r.Name.data with
    | true => rfl
    | false =>
      exfalso
      apply hne
      exact String.ext (strLess_connex _ _ hrel h)
  have hall : ∀ r ∈ run, (decide (imageRxPrefix r.Name = some p)
      && strLess x.Name.data r.Name.data) = true := by
    intro r hr
    simp [hrun r hr, hbefore r (hsub.subset hr)]
  have hsubs : run.Sublist (sortReverseByName images) := by
    rw [hs]
    exact hsub.trans (List.sublist_append_left pre2 (x :: post))
  have hfilter := hsubs.filter (fun y =>
    decide (imageRxPrefix y.Name = some p) && strLess x.Name.data y.Name.data)
  rw [List.filter_eq_self.2 hall] at hfilter
  have hle := hfilter.length_le
  have hpl := (hperm.filter (fun y =>
    decide (imageRxPrefix y.Name = some p) && strLess x.Name.data y.Name.data)).length_eq
  omega

theorem retention_keeps_recent_witness :
    keepImages ≤ (imagesSeven.filter fun y =>
      decide (imageRxPrefix y.Name = some "rhel7".data)
        && strLess (⟨"rhel7-201811010000", []⟩ : Image).Name.data y.Name.data).length :=
  retention_keeps_recent imagesSeven (by decide) ⟨"rhel7-201811010000", []⟩ "rhel7".data
    (by decide) (by decide)

/-! ## Dry-run -/

theorem purgeBlobsFilter_eq (now : Time) (images : List Image) (blobs : List Blob) :
    purgeBlobsFilter now images blobs = blobs.filter (blobSelected now images) := by
  simp [purgeBlobsFilter, foldl_append_if]

theorem purgeGroupsFilter_eq (now : Time) (groups : List Group) :
    purgeGroupsFilter now groups = groups.filter (groupSelected now) := by
  simp [purgeGroupsFilter, foldl_append_if]

/-- In dry-run the first loop of the executor only prints. -/
theorem submitDeletes_dryRun (line : String → String) (delete : String → Call)
    (names futures : List String) (w : World) :
    submitDeletes true line delete names futures w
      = (none, futures, { w with out := w.out ++ names.map line }) := by
  induction names generalizing w with
  | nil => simp [submitDeletes]
  | cons name rest ih =>
    simp only [submitDeletes, if_true, ih, printLine, List.map_cons, List.append_assoc,
      List.singleton_append]

/-- In dry-run the loop of `purgeBlobs` only prints. -/
theorem purgeBlobsLoop_dryRun (now : Time) (images : List Image) (blobs : List Blob)
    (w : World) :
    purgeBlobsLoop true now images blobs w
      = (none, { w with out := w.out
          ++ (blobs.filter (blobSelected now images)).map fun blob => blobLine blob.Name }) := by
  induction blobs generalizing w with
  | nil => simp [purgeBlobsLoop]
  | cons blob rest ih =>
    by_cases hsel : blobSelected now images blob = true
    · simp only [purgeBlobsLoop, hsel, if_true, ih, printLine, List.filter_cons_of_pos,
        List.map_cons, List.append_assoc, List.singleton_append]
    · simp only [purgeBlobsLoop, hsel, Bool.false_eq_true, if_false, ih, List.filter_cons_of_neg,
        not_false_eq_true]

/-- C12: with the dry-run flag set, for every delete-set `deleteImages`,
`deleteGroups` and the blob loop of `purgeBlobs` return no error and leave the
provider and the list of requests sent as they were (no delete is submitted,
no future is waited for), adding to the output one `delete ...` line for each
selected resource, in order. -/
theorem dry_run_issues_no_delete (now : Time) (w : World) (images live : List Image)
    (groups : List Group) (blobs : List Blob) :
    deleteImages true images w
        = (none, { w with out := w.out ++ images.map fun image => imageLine image.Name })
      ∧ deleteGroups true groups w
        = (none, { w with out := w.out ++ groups.map fun group => groupLine group.Name })
      ∧ purgeBlobsLoop true now live blobs w
        = (none, { w with out := w.out
            ++ (purgeBlobsFilter now live blobs).map fun blob => blobLine blob.Name }) := by
  refine ⟨?_, ?_, ?_⟩
  · simp [deleteImages, submitDeletes_dryRun, waitDeletes, List.map_map, Function.comp_def]
  · simp [deleteGroups, submitDeletes_dryRun, waitDeletes, List.map_map, Function.comp_def]
  · rw [purgeBlobsLoop_dryRun, purgeBlobsFilter_eq]

/-- C13 as stated fails: on `worldOneImage` the dry run prints one line, for the
image; the live run deletes the image in its first routine, so that its blob
routine no longer finds the image of the blob and selects the blob as well. -/
theorem dry_run_differs_from_live_counterexample :
    (run true nowSample worldOneImage).2.out = ["delete image rhel7-201810040000\n"]
      ∧ (run false nowSample worldOneImage).2.out
          = ["delete image rhel7-201810040000\n", "delete blob rhel7-201810040000.vhd\n"]
      ∧ (run true nowSample worldOneImage).1 = none
      ∧ (run false nowSample worldOneImage).1 = none := by
  decide

theorem complete_out (w : World) (c : Call) : (w.complete c).out = w.out := by
  cases c <;> rfl

theorem complete_faults (w : World) (c : Call) : (w.complete c).faults = w.faults := by
  cases c <;> rfl

theorem complete_calls (w : World) (c : Call) : (w.complete c).calls = w.calls := by
  cases c <;> rfl

theorem call_of_noFaults (c : Call) (w : World) (h : NoFaults w) :
    call c w = (none, { w.complete c with calls := w.calls ++ [(c, none)] }) := by
  simp [call, h w.calls.length]

theorem call_noFaults (c : Call) (w : World) (h : NoFaults w) :
    (call c w).1 = none ∧ (call c w).2.out = w.out ∧ NoFaults (call c w).2 := by
  rw [call_of_noFaults c w h]
  refine ⟨rfl, complete_out w c, ?_⟩
  intro n
  show (w.complete c).faults n = none
  rw [complete_faults]
  exact h n

/-- When no request fails, the first loop of the executor prints one line for
each name, in either mode. -/
theorem submitDeletes_out (dryRun : Bool) (line : String → String) (delete : String → Call)
    (names : List String) :
    ∀ (futures : List String) (w : World), NoFaults w →
      (submitDeletes dryRun line delete names futures w).1 = none
        ∧ (submitDeletes dryRun line delete names futures w).2.2.out = w.out ++ names.map line
        ∧ NoFaults (submitDeletes dryRun line delete names futures w).2.2 := by
  induction names with
  | nil =>
    intro futures w h
    simp [submitDeletes, h]
  | cons name rest ih =>
    intro futures w h
    have hp : NoFaults (printLine (line name) w) := h
    cases dryRun with
    | true =>
      simp only [submitDeletes, if_true]
      obtain ⟨h1, h2, h3⟩ := ih futures (printLine (line name) w) hp
      refine ⟨h1, ?_, h3⟩
      rw [h2]
      simp [printLine]
    | false =>
      simp only [submitDeletes, Bool.false_eq_true, if_false]
      obtain ⟨hc1, hc2, hc3⟩ := call_noFaults (delete name) (printLine (line name) w) hp
      cases hcall : call (delete name) (printLine (line name) w) with
      | mk res w2 =>
        rw [hcall] at hc1 hc2 hc3
        simp only at hc1 hc2 hc3
        subst hc1
        simp only
        obtain ⟨h1, h2, h3⟩ := ih (futures ++ [name]) w2 hc3
        refine ⟨h1, ?_, h3⟩
        rw [h2, hc2]
        simp [printLine]

theorem waitDeletes_out (wait : String → Call) (futures : List String) :
    ∀ (w : World), NoFaults w →
      (waitDeletes wait futures w).1 = none ∧ (waitDeletes wait futures w).2.out = w.out
        ∧ NoFaults (waitDeletes wait futures w).2 := by
  induction futures with
  | nil =>
    intro w h
    simp [waitDeletes, h]
  | cons future rest ih =>
    intro w h
    obtain ⟨hc1, hc2, hc3⟩ := call_noFaults (wait future) w h
    simp only [waitDeletes]
    cases hcall : call (wait future) w with
    | mk res w1 =>
      rw [hcall] at hc1 hc2 hc3
      simp only at hc1 hc2 hc3
      subst hc1
      simp only
      obtain ⟨h1, h2, h3⟩ := ih w1 hc3
      exact ⟨h1, by rw [h2, hc2], h3⟩

theorem deleteImages_out (dryRun : Bool) (images : List Image) (w : World) (h : NoFaults w) :
    (deleteImages dryRun images w).2.out
      = w.out ++ images.map fun image => imageLine image.Name := by
  obtain ⟨h1, h2, h3⟩ := submitDeletes_out dryRun imageLine Call.deleteImage
    (images.map fun image => image.Name) [] w h
  unfold deleteImages
  cases hs : submitDeletes dryRun imageLine Call.deleteImage
      (images.map fun image => image.Name) [] w with
  | mk res rest =>
    obtain ⟨futures, w1⟩ := rest
    rw [hs] at h1 h2 h3
    simp only at h1 h2 h3
    subst h1
    simp only
    rw [(waitDeletes_out Call.waitImage futures w1 h3).2.1, h2]
    simp [List.map_map, Function.comp_def]

theorem deleteGroups_out (dryRun : Bool) (groups : List Group) (w : World) (h : NoFaults w) :
    (deleteGroups dryRun groups w).2.out
      = w.out ++ groups.map fun group => groupLine group.Name := by
  obtain ⟨h1, h2, h3⟩ := submitDeletes_out dryRun groupLine Call.deleteGroup
    (groups.map fun group => group.Name) [] w h
  unfold deleteGroups
  cases hs : submitDeletes dryRun groupLine Call.deleteGroup
      (groups.map fun group => group.Name) [] w with
  | mk res rest =>
    obtain ⟨futures, w1⟩ := rest
    rw [hs] at h1 h2 h3
    simp only at h1 h2 h3
    subst h1
    simp only
    rw [(waitDeletes_out Call.waitGroup futures w1 h3).2.1, h2]
    simp [List.map_map, Function.comp_def]

theorem purgeBlobsLoop_out (dryRun : Bool) (now : Time) (images : List Image)
    (blobs : List Blob) :
    ∀ (w : World), NoFaults w →
      (purgeBlobsLoop dryRun now images blobs w).2.out
        = w.out ++ (blobs.filter (blobSelected now images)).map fun blob => blobLine blob.Name := by
  induction blobs with
  | nil =>
    intro w _
    simp [purgeBlobsLoop]
  | cons blob rest ih =>
    intro w h
    have hp : NoFaults (printLine (blobLine blob.Name) w) := h
    by_cases hsel : blobSelected now images blob = true
    · cases dryRun with
      | true =>
        simp only [purgeBlobsLoop, hsel, if_true]
        rw [ih _ hp]
        simp [printLine, hsel]
      | false =>
        simp only [purgeBlobsLoop, hsel, if_true, Bool.false_eq_true, if_false]
        obtain ⟨hc1, hc2, hc3⟩ :=
          call_noFaults (Call.deleteBlob blob.Name) (printLine (blobLine blob.Name) w) hp
        cases hcall : call (Call.deleteBlob blob.Name) (printLine (blobLine blob.Name) w) with
        | mk res w1 =>
          rw [hcall] at hc1 hc2 hc3
          simp only at hc1 hc2 hc3
          subst hc1
          simp only
          rw [ih w1 hc3, hc2]
          simp [printLine, hsel]
    · simp only [purgeBlobsLoop, hsel, Bool.false_eq_true, if_false]
      rw [ih w h]
      simp [hsel]

/-! ## Listing page by page -/

theorem pagesFrom_flatten {α : Type} (size : Nat) (l : List α) :
    ∀ cur : List α, (pagesFrom size cur l).flatten = cur ++ l := by
  induction l with
  | nil =>
    intro cur
    cases cur <;> simp [pagesFrom]
  | cons x xs ih =>
    intro cur
    by_cases h : cur.length + 1 = size
    · simp [pagesFrom, h, ih]
    · simp [pagesFrom, h, ih]

theorem pagesFrom_ne_nil {α : Type} (size : Nat) (l : List α) :
    ∀ cur : List α, ∀ page ∈ pagesFrom size cur l, page ≠ [] := by
  induction l with
  | nil =>
    intro cur page hp
    cases cur with
    | nil => simp [pagesFrom] at hp
    | cons c cs =>
      simp only [pagesFrom, List.mem_singleton] at hp
      rw [hp]
      simp
  | cons x xs ih =>
    intro cur page hp
    by_cases h : cur.length + 1 = size
    · simp only [pagesFrom, h, if_true, List.mem_cons] at hp
      rcases hp with hp | hp
      · rw [hp]
        simp
      · exact ih [] page hp
    · simp only [pagesFrom, h, if_false] at hp
      exact ih (cur ++ [x]) page hp

theorem onlyCalls_refl (w : World) : OnlyCalls w w :=
  ⟨rfl, rfl, rfl, rfl, rfl, rfl⟩

theorem onlyCalls_trans (w w1 w2 : World) (h1 : OnlyCalls w w1) (h2 : OnlyCalls w1 w2) :
    OnlyCalls w w2 := by
  obtain ⟨a1, a2, a3, a4, a5, a6⟩ := h1
  obtain ⟨b1, b2, b3, b4, b5, b6⟩ := h2
  exact ⟨b1.trans a1, b2.trans a2, b3.trans a3, b4.trans a4, b5.trans a5, b6.trans a6⟩

/-- A request that does not delete leaves everything but the record of requests,
whether it fails or not. -/
theorem onlyCalls_call (c : Call) (w : World) (hc : w.complete c = w) :
    OnlyCalls w (call c w).2 := by
  unfold call
  cases w.faults w.calls.length with
  | some err => exact ⟨rfl, rfl, rfl, rfl, rfl, rfl⟩
  | none =>
    simp only [hc]
    exact ⟨rfl, rfl, rfl, rfl, rfl, rfl⟩

theorem noFaults_of_onlyCalls (w w1 : World) (h : OnlyCalls w w1) (hn : NoFaults w) :
    NoFaults w1 := by
  intro n
  have := hn n
  unfold World.faults at *
  rw [h.2.2.2.2.1]
  exact this

theorem onlyCalls_pageLoop {α : Type} (next : Call) (hnext : ∀ w : World, w.complete next = w)
    (fuel : Nat) :
    ∀ (page : List α) (rest : List (List α)) (acc : List α) (w : World),
      OnlyCalls w (pageLoop next fuel page rest acc w).2 := by
  induction fuel with
  | zero =>
    intro page rest acc w
    exact onlyCalls_refl w
  | succ fuel ih =>
    intro page rest acc w
    cases page with
    | nil => exact onlyCalls_refl w
    | cons x page =>
      cases rest with
      | nil => exact onlyCalls_refl w
      | cons nextPage rest =>
        have hcall := onlyCalls_call next w (hnext w)
        simp only [pageLoop]
        cases hc : call next w with
        | mk res w1 =>
          rw [hc] at hcall
          cases res with
          | some err => exact onlyCalls_trans w w1 _ hcall (ih _ _ _ w1)
          | none => exact onlyCalls_trans w w1 _ hcall (ih _ _ _ w1)

/-- When no request fails the page loop appends every page once. -/
theorem pageLoop_noFaults {α : Type} (next : Call) (fuel : Nat) :
    ∀ (page : List α) (rest : List (List α)) (acc : List α) (w : World),
      NoFaults w → rest.length < fuel → page ≠ [] → (∀ p ∈ rest, p ≠ []) →
      (pageLoop next fuel page rest acc w).1 = acc ++ page ++ rest.flatten := by
  induction fuel with
  | zero =>
    intro page rest acc w _ hfuel
    exact absurd hfuel (Nat.not_lt_zero _)
  | succ fuel ih =>
    intro page rest acc w hn hfuel hpage hrest
    cases page with
    | nil => exact absurd rfl hpage
    | cons x page =>
      cases rest with
      | nil => simp [pageLoop]
      | cons nextPage rest =>
        obtain ⟨hc1, _, hc3⟩ := call_noFaults next w hn
        simp only [pageLoop]
        cases hc : call next w with
        | mk res w1 =>
          rw [hc] at hc1 hc3
          simp only at hc1 hc3
          subst hc1
          simp only
          rw [ih nextPage rest (acc ++ x :: page) w1 hc3
            (by simp only [List.length_cons] at hfuel; omega)
            (hrest nextPage (List.mem_cons_self _ _))
            (fun p hp => hrest p (List.mem_cons_of_mem _ hp))]
          simp

theorem listImages_noFaults (w : World) (h : NoFaults w) :
    (listImages w).1 = none ∧ (listImages w).2.1 = w.images ∧ OnlyCalls w (listImages w).2.2 := by
  have hcall := call_of_noFaults Call.listImages w h
  have hw : w.complete Call.listImages = w := rfl
  rw [hw] at hcall
  have h0 : NoFaults { w with calls := w.calls ++ [(Call.listImages, none)] } := h
  have ho : OnlyCalls w { w with calls := w.calls ++ [(Call.listImages, none)] } :=
    ⟨rfl, rfl, rfl, rfl, rfl, rfl⟩
  simp only [listImages, hcall]
  refine ⟨trivial, ?_, onlyCalls_trans _ _ _ ho
    (onlyCalls_pageLoop Call.nextImages (fun _ => rfl) _ _ _ _ _)⟩
  have hflat := pagesFrom_flatten w.pageSize w.images []
  have hne := pagesFrom_ne_nil w.pageSize w.images []
  cases hp : pagesFrom w.pageSize [] w.images with
  | nil =>
    rw [hp] at hflat
    simp only [List.flatten_nil, List.nil_append] at hflat
    simp [pageTurns, pageLoop, ← hflat]
  | cons page rest =>
    rw [hp] at hflat hne
    have hloop := pageLoop_noFaults Call.nextImages
      (pageTurns (page :: rest) { w with calls := w.calls ++ [(Call.listImages, none)] })
      page rest [] { w with calls := w.calls ++ [(Call.listImages, none)] } h0
      (by simp only [pageTurns, List.length_cons]; omega)
      (hne page (List.mem_cons_self _ _))
      (fun p hp => hne p (List.mem_cons_of_mem _ hp))
    simp only [List.headD_cons, List.tail_cons]
    rw [hloop]
    simp only [List.nil_append, List.flatten_cons] at hflat ⊢
    rw [hflat]

theorem listGroups_noFaults (w : World) (h : NoFaults w) :
    (listGroups w).1 = none ∧ (listGroups w).2.1 = w.groups ∧ OnlyCalls w (listGroups w).2.2 := by
  have hcall := call_of_noFaults Call.listGroups w h
  have hw : w.complete Call.listGroups = w := rfl
  rw [hw] at hcall
  have h0 : NoFaults { w with calls := w.calls ++ [(Call.listGroups, none)] } := h
  have ho : OnlyCalls w { w with calls := w.calls ++ [(Call.listGroups, none)] } :=
    ⟨rfl, rfl, rfl, rfl, rfl, rfl⟩
  simp only [listGroups, hcall]
  refine ⟨trivial, ?_, onlyCalls_trans _ _ _ ho
    (onlyCalls_pageLoop Call.nextGroups (fun _ => rfl) _ _ _ _ _)⟩
  have hflat := pagesFrom_flatten w.pageSize w.groups []
  have hne := pagesFrom_ne_nil w.pageSize w.groups []
  cases hp : pagesFrom w.pageSize [] w.groups with
  | nil =>
    rw [hp] at hflat
    simp only [List.flatten_nil, List.nil_append] at hflat
    simp [pageTurns, pageLoop, ← hflat]
  | cons page rest =>
    rw [hp] at hflat hne
    have hloop := pageLoop_noFaults Call.nextGroups
      (pageTurns (page :: rest) { w with calls := w.calls ++ [(Call.listGroups, none)] })
      page rest [] { w with calls := w.calls ++ [(Call.listGroups, none)] } h0
      (by simp only [pageTurns, List.length_cons]; omega)
      (hne page (List.mem_cons_self _ _))
      (fun p hp => hne p (List.mem_cons_of_mem _ hp))
    simp only [List.headD_cons, List.tail_cons]
    rw [hloop]
    simp only [List.nil_append, List.flatten_cons] at hflat ⊢
    rw [hflat]

theorem listBlobs_of_noFaults (w : World) (h : NoFaults w) :
    listBlobs w = (none, w.blobs, { w with calls := w.calls ++ [(Call.listBlobs, none)] }) := by
  simp [listBlobs, call_of_noFaults Call.listBlobs w h, World.complete]

/-- C13, amended: on every provider state on which no request fails, and for
every current instant, each of the four routines (invalid-image, retention,
blob, group) started on that state prints, in dry-run mode as in live mode,
the same `delete image/blob/group <name>` lines: one for each resource in the
delete-set that its filter computes on that state, in order. -/
theorem routine_log_same_in_both_modes (dryRun : Bool) (now : Time) (w : World)
    (h : NoFaults w) :
    (purgeInvalidImages dryRun now w).2.out
        = w.out ++ (purgeInvalidImagesFilter now w.images).map (fun image => imageLine image.Name)
      ∧ (purgeOldImages dryRun w).2.out
        = w.out ++ (purgeOldImagesFilter w.images).map (fun image => imageLine image.Name)
      ∧ (purgeBlobs dryRun now w).2.out
        = w.out ++ (purgeBlobsFilter now w.images w.blobs).map (fun blob => blobLine blob.Name)
      ∧ (purgeGroups dryRun now w).2.out
        = w.out ++ (purgeGroupsFilter now w.groups).map (fun group => groupLine group.Name) := by
  obtain ⟨hi1, hi2, hi3⟩ := listImages_noFaults w h
  obtain ⟨hg1, hg2, hg3⟩ := listGroups_noFaults w h
  refine ⟨?_, ?_, ?_, ?_⟩
  · unfold purgeInvalidImages
    cases hl : listImages w with
    | mk res rest =>
      obtain ⟨images, w1⟩ := rest
      rw [hl] at hi1 hi2 hi3
      simp only at hi1 hi2 hi3
      subst hi1
      subst hi2
      simp only
      rw [deleteImages_out _ _ _ (noFaults_of_onlyCalls w w1 hi3 h), hi3.2.2.2.2.2]
  · unfold purgeOldImages
    cases hl : listImages w with
    | mk res rest =>
      obtain ⟨images, w1⟩ := rest
      rw [hl] at hi1 hi2 hi3
      simp only at hi1 hi2 hi3
      subst hi1
      subst hi2
      simp only
      rw [deleteImages_out _ _ _ (noFaults_of_onlyCalls w w1 hi3 h), hi3.2.2.2.2.2]
  · unfold purgeBlobs
    cases hl : listImages w with
    | mk res rest =>
      obtain ⟨images, w1⟩ := rest
      rw [hl] at hi1 hi2 hi3
      simp only at hi1 hi2 hi3
      subst hi1
      subst hi2
      have hn1 : NoFaults w1 := noFaults_of_onlyCalls w w1 hi3 h
      have hn2 : NoFaults { w1 with calls := w1.calls ++ [(Call.listBlobs, none)] } := hn1
      simp only [listBlobs_of_noFaults w1 hn1]
      rw [purgeBlobsLoop_out _ _ _ _ _ hn2, purgeBlobsFilter_eq]
      show w1.out ++ _ = _
      rw [hi3.2.2.2.2.2, hi3.2.1]
  · unfold purgeGroups
    cases hl : listGroups w with
    | mk res rest =>
      obtain ⟨groups, w1⟩ := rest
      rw [hl] at hg1 hg2 hg3
      simp only at hg1 hg2 hg3
      subst hg1
      subst hg2
      simp only
      rw [deleteGroups_out _ _ _ (noFaults_of_onlyCalls w w1 hg3 h), hg3.2.2.2.2.2]

theorem routine_log_same_in_both_modes_witness :
    (purgeInvalidImages false nowSample worldOneImage).2.out
        = worldOneImage.out
          ++ (purgeInvalidImagesFilter nowSample worldOneImage.images).map (fun image => imageLine image.Name)
      ∧ (purgeOldImages false worldOneImage).2.out
        = worldOneImage.out
          ++ (purgeOldImagesFilter worldOneImage.images).map (fun image => imageLine image.Name)
      ∧ (purgeBlobs false nowSample worldOneImage).2.out
        = worldOneImage.out
          ++ (purgeBlobsFilter nowSample worldOneImage.images worldOneImage.blobs).map (fun blob => blobLine blob.Name)
      ∧ (purgeGroups false nowSample worldOneImage).2.out
        = worldOneImage.out
          ++ (purgeGroupsFilter nowSample worldOneImage.groups).map (fun group => groupLine group.Name) :=
  routine_log_same_in_both_modes false nowSample worldOneImage (fun _ => rfl)

/-! ## Errors -/

theorem propagates_none_iff (w w1 : World) :
    Propagates w (none, w1)
      ↔ ∃ sent : List (Call × Option Err), w1.calls = w.calls ++ sent ∧ ∀ x ∈ sent, x.2 = none :=
  Iff.rfl

theorem propagates_some_iff (w w1 : World) (err : Err) :
    Propagates w (some err, w1)
      ↔ ∃ sent : List (Call × Option Err), w1.calls = w.calls ++ sent
          ∧ ∃ (before : List (Call × Option Err)) (c : Call),
              sent = before ++ [(c, some err)] ∧ ∀ x ∈ before, x.2 = none :=
  Iff.rfl

theorem propagates_refl (w w1 : World) (h : w1.calls = w.calls) : Propagates w (none, w1) :=
  (propagates_none_iff w w1).2 ⟨[], by simp [h], by simp⟩

theorem propagates_of_calls_eq (w w0 : World) (r : Option Err × World)
    (h : w0.calls = w.calls) (hr : Propagates w0 r) : Propagates w r := by
  unfold Propagates at *
  rw [← h]
  exact hr

/-- A routine that follows one that returned no error. -/
theorem propagates_trans (w w1 : World) (r : Option Err × World)
    (h1 : Propagates w (none, w1)) (h2 : Propagates w1 r) : Propagates w r := by
  obtain ⟨res, w2⟩ := r
  obtain ⟨sent1, hc1, hs1⟩ := (propagates_none_iff w w1).1 h1
  cases res with
  | none =>
    obtain ⟨sent2, hc2, hs2⟩ := (propagates_none_iff w1 w2).1 h2
    refine (propagates_none_iff w w2).2 ⟨sent1 ++ sent2, ?_, ?_⟩
    · rw [hc2, hc1, List.append_assoc]
    · intro x hx
      rcases List.mem_append.1 hx with h | h
      · exact hs1 x h
      · exact hs2 x h
  | some err =>
    obtain ⟨sent2, hc2, before, c, hsent, hb⟩ := (propagates_some_iff w1 w2 err).1 h2
    refine (propagates_some_iff w w2 err).2
      ⟨sent1 ++ sent2, ?_, sent1 ++ before, c, ?_, ?_⟩
    · rw [hc2, hc1, List.append_assoc]
    · rw [hsent, List.append_assoc]
    · intro x hx
      rcases List.mem_append.1 hx with h | h
      · exact hs1 x h
      · exact hb x h

theorem propagates_call (c : Call) (w : World) : Propagates w (call c w) := by
  unfold call
  cases hf : w.faults w.calls.length with
  | some err =>
    exact (propagates_some_iff w _ err).2 ⟨[(c, some err)], rfl, [], c, rfl, by simp⟩
  | none =>
    refine (propagates_none_iff w _).2 ⟨[(c, none)], ?_, by simp⟩
    show w.calls ++ [(c, none)] = w.calls ++ [(c, none)]
    rfl

theorem propagates_submitDeletes (dryRun : Bool) (line : String → String)
    (delete : String → Call) (names : List String) :
    ∀ (futures : List String) (w : World),
      Propagates w ((submitDeletes dryRun line delete names futures w).1,
        (submitDeletes dryRun line delete names futures w).2.2) := by
  induction names with
  | nil =>
    intro futures w
    exact propagates_refl w w rfl
  | cons name rest ih =>
    intro futures w
    cases dryRun with
    | true =>
      simp only [submitDeletes, if_true]
      exact propagates_of_calls_eq w _ _ rfl (ih futures (printLine (line name) w))
    | false =>
      simp only [submitDeletes, Bool.false_eq_true, if_false]
      have hcall := propagates_call (delete name) (printLine (line name) w)
      cases hc : call (delete name) (printLine (line name) w) with
      | mk res w2 =>
        rw [hc] at hcall
        cases res with
        | some err => exact propagates_of_calls_eq w _ _ rfl hcall
        | none =>
          exact propagates_of_calls_eq w _ _ rfl
            (propagates_trans _ w2 _ hcall (ih (futures ++ [name]) w2))

theorem propagates_waitDeletes (wait : String → Call) (futures : List String) :
    ∀ (w : World), Propagates w (waitDeletes wait futures w) := by
  induction futures with
  | nil =>
    intro w
    exact propagates_refl w w rfl
  | cons future rest ih =>
    intro w
    simp only [waitDeletes]
    have hcall := propagates_call (wait future) w
    cases hc : call (wait future) w with
    | mk res w1 =>
      rw [hc] at hcall
      cases res with
      | some err => exact hcall
      | none => exact propagates_trans w w1 _ hcall (ih w1)

theorem propagates_deleteImages (dryRun : Bool) (images : List Image) (w : World) :
    Propagates w (deleteImages dryRun images w) := by
  have hs := propagates_submitDeletes dryRun imageLine Call.deleteImage
    (images.map fun image => image.Name) [] w
  unfold deleteImages
  cases hsub : submitDeletes dryRun imageLine Call.deleteImage
      (images.map fun image => image.Name) [] w with
  | mk res rest =>
    obtain ⟨futures, w1⟩ := rest
    rw [hsub] at hs
    cases res with
    | some err => exact hs
    | none => exact propagates_trans w w1 _ hs (propagates_waitDeletes Call.waitImage futures w1)

theorem propagates_deleteGroups (dryRun : Bool) (groups : List Group) (w : World) :
    Propagates w (deleteGroups dryRun groups w) := by
  have hs := propagates_submitDeletes dryRun groupLine Call.deleteGroup
    (groups.map fun group => group.Name) [] w
  unfold deleteGroups
  cases hsub : submitDeletes dryRun groupLine Call.deleteGroup
      (groups.map fun group => group.Name) [] w with
  | mk res rest =>
    obtain ⟨futures, w1⟩ := rest
    rw [hsub] at hs
    cases res with
    | some err => exact hs
    | none => exact propagates_trans w w1 _ hs (propagates_waitDeletes Call.waitGroup futures w1)

theorem propagates_purgeBlobsLoop (dryRun : Bool) (now : Time) (images : List Image)
    (blobs : List Blob) :
    ∀ (w : World), Propagates w (purgeBlobsLoop dryRun now images blobs w) := by
  induction blobs with
  | nil =>
    intro w
    exact propagates_refl w w rfl
  | cons blob rest ih =>
    intro w
    by_cases hsel : blobSelected now images blob = true
    · cases dryRun with
      | true =>
        simp only [purgeBlobsLoop, hsel, if_true]
        exact propagates_of_calls_eq w _ _ rfl (ih (printLine (blobLine blob.Name) w))
      | false =>
        simp only [purgeBlobsLoop, hsel, if_true, Bool.false_eq_true, if_false]
        have hcall := propagates_call (Call.deleteBlob blob.Name)
          (printLine (blobLine blob.Name) w)
        cases hc : call (Call.deleteBlob blob.Name) (printLine (blobLine blob.Name) w) with
        | mk res w1 =>
          rw [hc] at hcall
          cases res with
          | some err => exact propagates_of_calls_eq w _ _ rfl hcall
          | none =>
            exact propagates_of_calls_eq w _ _ rfl (propagates_trans _ w1 _ hcall (ih w1))
    · simp only [purgeBlobsLoop, hsel, Bool.false_eq_true, if_false]
      exact ih w

theorem propagates_listBlobs (w : World) :
    Propagates w ((listBlobs w).1, (listBlobs w).2.2) := by
  have hcall := propagates_call Call.listBlobs w
  unfold listBlobs
  cases hc : call Call.listBlobs w with
  | mk res w1 =>
    rw [hc] at hcall
    cases res <;> exact hcall

theorem propagates_getClients (w : World) : Propagates w (getClients w) := by
  have h1 := propagates_call Call.newAuthorizer w
  unfold getClients
  cases hc1 : call Call.newAuthorizer w with
  | mk res w1 =>
    rw [hc1] at h1
    cases res with
    | some err => exact h1
    | none =>
      have h2 := propagates_call Call.listKeys w1
      simp only
      cases hc2 : call Call.listKeys w1 with
      | mk res2 w2 =>
        rw [hc2] at h2
        cases res2 with
        | some err => exact propagates_trans w w1 _ h1 h2
        | none =>
          exact propagates_trans w w1 _ h1
            (propagates_trans w1 w2 _ h2 (propagates_call Call.newStorageClient w2))

/-- What `Propagates` says of a request that failed: the routine returns its
error, and it is the last request the routine sent. -/
theorem propagates_failed (w : World) (r : Option Err × World) (h : Propagates w r)
    (c : Call) (err : Err) (sent : List (Call × Option Err))
    (hsent : r.2.calls = w.calls ++ sent) (hmem : (c, some err) ∈ sent) :
    r.1 = some err ∧ ∃ before, sent = before ++ [(c, some err)] := by
  obtain ⟨res, w1⟩ := r
  cases res with
  | none =>
    obtain ⟨sent1, hc1, hs1⟩ := (propagates_none_iff w w1).1 h
    have heq : sent = sent1 := List.append_cancel_left (hsent.symm.trans hc1)
    rw [heq] at hmem
    exact absurd (hs1 _ hmem) (by simp)
  | some e =>
    obtain ⟨sent1, hc1, before, c1, hs1, hb⟩ := (propagates_some_iff w w1 e).1 h
    have heq : sent = sent1 := List.append_cancel_left (hsent.symm.trans hc1)
    rw [heq, hs1] at hmem
    rcases List.mem_append.1 hmem with hm | hm
    · exact absurd (hb _ hm) (by simp)
    · have hpair := List.mem_singleton.1 hm
      have hc : c = c1 := (Prod.mk.inj hpair).1
      have he : err = e := Option.some.inj (Prod.mk.inj hpair).2
      subst hc
      subst he
      exact ⟨rfl, before, by rw [heq, hs1]⟩

/-- The request for the first page is the one whose error `listImages`
returns. -/
theorem listImages_error (w : World) : (listImages w).1 = (call Call.listImages w).1 := by
  unfold listImages
  cases hc : call Call.listImages w with
  | mk res w1 => cases res <;> rfl

theorem listGroups_error (w : World) : (listGroups w).1 = (call Call.listGroups w).1 := by
  unfold listGroups
  cases hc : call Call.listGroups w with
  | mk res w1 => cases res <;> rfl

theorem call_calls (c : Call) (w : World) :
    (call c w).2.calls.length = w.calls.length + 1 ∧ (call c w).2.script = w.script
      ∧ ((call c w).1 ≠ none → w.calls.length < w.script.length) := by
  unfold call
  cases hf : w.faults w.calls.length with
  | some err =>
    refine ⟨by simp, rfl, fun _ => ?_⟩
    by_contra hlt
    unfold World.faults at hf
    rw [List.getD_eq_default _ _ (not_lt.1 hlt)] at hf
    exact absurd hf (by simp)
  | none =>
    refine ⟨by simp, ?_, fun hne => absurd rfl hne⟩
    cases c <;> rfl

/-- The bound on the turns of the page loop is never reached: with any two
bounds above the pages to come and the failures the script still holds, the
loop gives the same result. -/
theorem pageLoop_fuel {α : Type} (next : Call) (fuel1 : Nat) :
    ∀ (fuel2 : Nat) (page : List α) (rest : List (List α)) (acc : List α) (w : World),
      rest.length + (w.script.length - w.calls.length) < fuel1 →
      rest.length + (w.script.length - w.calls.length) < fuel2 →
      pageLoop next fuel1 page rest acc w = pageLoop next fuel2 page rest acc w := by
  induction fuel1 with
  | zero =>
    intro fuel2 page rest acc w h1
    exact absurd h1 (Nat.not_lt_zero _)
  | succ fuel1 ih =>
    intro fuel2 page rest acc w h1 h2
    cases fuel2 with
    | zero => exact absurd h2 (Nat.not_lt_zero _)
    | succ fuel2 =>
      cases page with
      | nil => rfl
      | cons x page =>
        cases rest with
        | nil => rfl
        | cons nextPage rest =>
          obtain ⟨hlen, hscript, hfail⟩ := call_calls next w
          simp only [pageLoop]
          cases hc : call next w with
          | mk res w1 =>
            rw [hc] at hlen hscript hfail
            simp only at hlen hscript hfail
            simp only [List.length_cons] at h1 h2
            cases res with
            | some err =>
              have hlt := hfail (by simp)
              exact ih fuel2 _ _ _ w1
                (by simp only [List.length_cons, hlen, hscript]; omega)
                (by simp only [List.length_cons, hlen, hscript]; omega)
            | none =>
              exact ih fuel2 _ _ _ w1
                (by rw [hlen, hscript]; omega) (by rw [hlen, hscript]; omega)

/-- The routine `run` returns no error exactly when `getClients` and the four
routines, in the order invalid images, old images, blobs, groups, each
returned none. -/
theorem run_ok_iff (dryRun : Bool) (now : Time) (w : World) :
    (run dryRun now w).1 = none
      ↔ ∃ w1 w2 w3 w4, getClients w = (none, w1)
          ∧ purgeInvalidImages dryRun now w1 = (none, w2)
          ∧ purgeOldImages dryRun w2 = (none, w3)
          ∧ purgeBlobs dryRun now w3 = (none, w4)
          ∧ (purgeGroups dryRun now w4).1 = none := by
  unfold run
  cases hc1 : getClients w with
  | mk res1 w1 =>
    cases res1 with
    | some err => simp
    | none =>
      simp only
      cases hc2 : purgeInvalidImages dryRun now w1 with
      | mk res2 w2 =>
        cases res2 with
        | some err => simp [hc2]
        | none =>
          simp only
          cases hc3 : purgeOldImages dryRun w2 with
          | mk res3 w3 =>
            cases res3 with
            | some err => simp [hc2, hc3]
            | none =>
              simp only
              cases hc4 : purgeBlobs dryRun now w3 with
              | mk res4 w4 =>
                cases res4 with
                | some err => simp [hc2, hc3, hc4]
                | none => simp [hc2, hc3, hc4]

/-- C14: evaluation at a failing input. The provider lists the two images one
to a page and the request for the second page fails. `listImages` does not
read the error: the routine and the run return no error, the first page is
appended a second time, and the deletes are submitted after the failed
request. So the requests sent do not have the shape that `Propagates` asks
for (a failed request is the last one, and its error the result). -/
theorem page_request_error_is_swallowed :
    (purgeInvalidImages false nowSample worldPageFails).1 = none
      ∧ (purgeInvalidImages false nowSample worldPageFails).2.calls
        = [(Call.listImages, none), (Call.nextImages, some "timeout"), (Call.nextImages, none),
            (Call.deleteImage "scratch", none), (Call.deleteImage "scratch", none),
            (Call.deleteImage "test", none), (Call.waitImage "scratch", none),
            (Call.waitImage "scratch", none), (Call.waitImage "test", none)]
      ∧ (run false nowSample worldPageFailsInRun).1 = none
      ∧ (Call.nextImages, some "timeout") ∈ (run false nowSample worldPageFailsInRun).2.calls
      ∧ (Call.deleteImage "test", none) ∈ (run false nowSample worldPageFailsInRun).2.calls
      ∧ ¬ Propagates worldPageFails (purgeInvalidImages false nowSample worldPageFails) := by
  refine ⟨by decide, by decide, by decide, by decide, by decide, ?_⟩
  intro h
  have hcalls : (purgeInvalidImages false nowSample worldPageFails).2.calls
      = worldPageFails.calls ++ [(Call.listImages, none), (Call.nextImages, some "timeout"),
          (Call.nextImages, none), (Call.deleteImage "scratch", none),
          (Call.deleteImage "scratch", none), (Call.deleteImage "test", none),
          (Call.waitImage "scratch", none), (Call.waitImage "scratch", none),
          (Call.waitImage "test", none)] := by decide
  have hres := (propagates_failed worldPageFails _ h Call.nextImages "timeout" _ hcalls
    (by decide)).1
  exact absurd hres (by decide)

/-- An error at work: on `worldSecondDeleteFails` the live run lists two images
to delete, the submission of the second delete fails, and the run returns that
error after six requests, the failed one being the last. -/
theorem run_second_delete_fails_sample :
    (run false nowSample worldSecondDeleteFails).1 = some "conflict"
      ∧ (run false nowSample worldSecondDeleteFails).2.calls
        = [(Call.newAuthorizer, none), (Call.listKeys, none), (Call.newStorageClient, none),
            (Call.listImages, none), (Call.deleteImage "scratch", none),
            (Call.deleteImage "test", some "conflict")]
      ∧ (run false nowSample worldSecondDeleteFails).2.out
        = ["delete image scratch\n", "delete image test\n"] := by
  decide

end AzurePurge
